import Mathlib

/-!
Verification of the Dreamer-style network components in `src/dreamer/networks.py`:
the recurrent state-space `TransitionModel`, the `ActorModel` policy head with its
tanh-transformed Normal action distribution, and the Monte-Carlo `SampleDist`
approximator.

Modelling conventions:
* Real tensors are modelled over `ℝ`.  For the `TransitionModel`, tensors of shape
  `(batch, features)` are viewed at a fixed batch element (every operation in the
  source acts rowwise across the batch dimension), so a tensor is a `Vec := List ℝ`
  and a time sequence of tensors is a `List Vec`.  For the `ActorModel` and
  `SampleDist` the batch dimension is kept explicit (`List Vec`), since
  `SampleDist.mode` manipulates it through `argmax`/`gather`.
* Randomness (`torch.randn_like`, `rsample`) is passed in as explicit noise
  arguments; a forward pass is a pure function of parameters, inputs and noise.
* Fallible tensor operations (`torch.stack` on an empty list, out-of-range
  indexing) are modelled with `Option`.
-/

noncomputable section

namespace Dreamer

abbrev Vec := List ℝ

/-- Dot product of a weight row with an input vector (`torch` linear layer row). -/
def dot (w x : Vec) : ℝ := (List.zipWith (fun a b => a * b) w x).sum

/-- An `nn.Linear` layer: one weight row per output feature, plus a bias vector. -/
structure Linear where
  weight : List Vec
  bias : Vec

/-- Apply a linear layer to a feature vector. -/
def Linear.apply (l : Linear) (x : Vec) : Vec :=
  List.zipWith (fun w b => dot w x + b) l.weight l.bias

/-- `F.softplus` with the default `beta = 1`. -/
def softplus (x : ℝ) : ℝ := Real.log (1 + Real.exp x)

/-- Logistic sigmoid, used inside the GRU cell gates. -/
def sigmoid (x : ℝ) : ℝ := 1 / (1 + Real.exp (-x))

/-- Elementwise sum of two vectors. -/
def vadd (a b : Vec) : Vec := List.zipWith (fun x y => x + y) a b

/-- Elementwise product of two vectors. -/
def vmul (a b : Vec) : Vec := List.zipWith (fun x y => x * y) a b

/-- `torch.chunk(x, 2, dim)`: two chunks along a dimension, the first of size
`⌈n/2⌉`. -/
def chunkHalf (x : Vec) : Vec × Vec :=
  (x.take ((x.length + 1) / 2), x.drop ((x.length + 1) / 2))

/-- `torch.chunk(x, 3, dim)`: three chunks, the first two of size `⌈n/3⌉`. -/
def chunk3 (x : Vec) : Vec × Vec × Vec :=
  let c := (x.length + 2) / 3
  (x.take c, (x.drop c).take c, x.drop (2 * c))

/-- An `nn.GRUCell`, with the stacked reset/update/new gate parameters. -/
structure GRUCell where
  weight_ih : List Vec
  weight_hh : List Vec
  bias_ih : Vec
  bias_hh : Vec

/-- The standard `nn.GRUCell` update:
`r = σ(W_ir x + b_ir + W_hr h + b_hr)`, `z = σ(W_iz x + b_iz + W_hz h + b_hz)`,
`n = tanh(W_in x + b_in + r ⊙ (W_hn h + b_hn))`, `h' = (1 − z) ⊙ n + z ⊙ h`. -/
def GRUCell.apply (c : GRUCell) (x h : Vec) : Vec :=
  let gi := Linear.apply ⟨c.weight_ih, c.bias_ih⟩ x
  let gh := Linear.apply ⟨c.weight_hh, c.bias_hh⟩ h
  let ri := chunk3 gi
  let rh := chunk3 gh
  let r := (vadd ri.1 rh.1).map sigmoid
  let z := (vadd ri.2.1 rh.2.1).map sigmoid
  let n := (vadd ri.2.2 (vmul r rh.2.2)).map Real.tanh
  vadd (vmul (z.map (fun zi => 1 - zi)) n) (vmul z h)

/-- The RSSM transition model: learned parameters of `TransitionModel.__init__`.
`act_fn` is the pointwise nonlinearity selected by `getattr(F, activation_function)`. -/
structure TransitionModel where
  act_fn : ℝ → ℝ
  min_std_dev : ℝ
  fc_embed_state_action : Linear
  rnn : GRUCell
  fc_embed_belief_prior : Linear
  fc_state_prior : Linear
  fc_embed_belief_posterior : Linear
  fc_state_posterior : Linear

/-- The seven per-timestep working lists of `TransitionModel.forward`
(`beliefs, prior_states, ..., posterior_std_devs`), each of length `T`. -/
structure Arrays where
  beliefs : List Vec
  prior_states : List Vec
  prior_means : List Vec
  prior_std_devs : List Vec
  posterior_states : List Vec
  posterior_means : List Vec
  posterior_std_devs : List Vec

/-- Lines 52–53 of the source: preallocate each list with `T` placeholder
entries (`torch.empty(0)`, modelled as `[]`) and write the initial belief/state
at index `0`. -/
def initArrays (T : Nat) (prev_belief prev_state : Vec) : Arrays :=
  let e : List Vec := List.replicate T []
  { beliefs := e.set 0 prev_belief
    prior_states := e.set 0 prev_state
    prior_means := e
    prior_std_devs := e
    posterior_states := e.set 0 prev_state
    posterior_means := e
    posterior_std_devs := e }

/-- Lines 56–57 of the source: select the previous posterior state when
observations are supplied (else the prior state), and multiply it by the
nonterminal mask entry `nonterminals[t-1]` except at the very first step. -/
def selectedState (hasObs : Bool) (nonterminals : Option (List ℝ)) (t : Nat)
    (A : Arrays) : Option Vec := do
  let s ← (if hasObs then A.posterior_states else A.prior_states)[t]?
  match nonterminals with
  | none => pure s
  | some ns =>
      if t = 0 then pure s
      else do
        let c ← ns[t - 1]?
        pure (s.map (fun x => x * c))

/-- Per-step outputs written at index `t+1` by the loop body. -/
structure StepOut where
  belief : Vec
  prior_mean : Vec
  prior_std_dev : Vec
  prior_state : Vec
  posterior : Option (Vec × Vec × Vec)

/-- Lines 59–74 of the source, the per-step computation: GRU belief update,
prior head (`chunk` into mean and raw std, `softplus` floor, reparameterized
sample), and — when an observation embedding is given — the posterior head. -/
def TransitionModel.stepCompute (m : TransitionModel) (state belief action pnoise : Vec)
    (obs : Option (Vec × Vec)) : StepOut :=
  let hidden := (m.fc_embed_state_action.apply (state ++ action)).map m.act_fn
  let belief' := m.rnn.apply hidden belief
  let hidden_p := (m.fc_embed_belief_prior.apply belief').map m.act_fn
  let pm := chunkHalf (m.fc_state_prior.apply hidden_p)
  let prior_std := pm.2.map (fun x => softplus x + m.min_std_dev)
  let prior_state := vadd pm.1 (vmul prior_std pnoise)
  let posterior := obs.map (fun oe =>
    let hidden_q := (m.fc_embed_belief_posterior.apply (belief' ++ oe.1)).map m.act_fn
    let qm := chunkHalf (m.fc_state_posterior.apply hidden_q)
    let qstd := qm.2.map (fun x => softplus x + m.min_std_dev)
    (qm.1, qstd, vadd qm.1 (vmul qstd oe.2)))
  ⟨belief', pm.1, prior_std, prior_state, posterior⟩

/-- One iteration of the time loop (loop index `t`): read the selected previous
state and belief, run the step computation, and write the results at index
`t+1`.  Out-of-range indexing is a failure (`none`), as in the source. -/
def stepWrite (m : TransitionModel) (actions : List Vec)
    (observations : Option (List Vec)) (nonterminals : Option (List ℝ))
    (pnoise qnoise : List Vec) (t : Nat) (A : Arrays) : Option Arrays := do
  let state ← selectedState observations.isSome nonterminals t A
  let belief ← A.beliefs[t]?
  let action ← actions[t]?
  let εp ← pnoise[t]?
  let obs ← match observations with
    | none => pure none
    | some os => do
        -- `observations[t_ + 1]` with `t_ = t - 1`, i.e. `observations[t]`
        let e ← os[t]?
        let εq ← qnoise[t]?
        pure (some (e, εq))
  let o := m.stepCompute state belief action εp obs
  let A' := { A with
    beliefs := A.beliefs.set (t + 1) o.belief
    prior_means := A.prior_means.set (t + 1) o.prior_mean
    prior_std_devs := A.prior_std_devs.set (t + 1) o.prior_std_dev
    prior_states := A.prior_states.set (t + 1) o.prior_state }
  match o.posterior with
  | none => pure A'
  | some q => pure { A' with
      posterior_means := A'.posterior_means.set (t + 1) q.1
      posterior_std_devs := A'.posterior_std_devs.set (t + 1) q.2.1
      posterior_states := A'.posterior_states.set (t + 1) q.2.2 }

/-- Run the first `k` iterations of the time loop, starting from the
preallocated arrays. -/
def TransitionModel.runSteps (m : TransitionModel) (prev_state : Vec)
    (actions : List Vec) (prev_belief : Vec) (observations : Option (List Vec))
    (nonterminals : Option (List ℝ)) (pnoise qnoise : List Vec) : Nat → Option Arrays
  | 0 => some (initArrays (actions.length + 1) prev_belief prev_state)
  | k + 1 =>
      (m.runSteps prev_state actions prev_belief observations nonterminals
        pnoise qnoise k).bind
        (stepWrite m actions observations nonterminals pnoise qnoise k)

/-- `torch.stack` on a list of tensors: fails on the empty list. -/
def stack1 (l : List Vec) : Option (List Vec) :=
  if l.isEmpty then none else some l

/-- `TransitionModel.forward`: run the `T - 1 = actions.length` loop iterations,
then stack the slices `[1:]` of the working lists; the three posterior sequences
are appended only when observations were supplied. -/
def TransitionModel.forward (m : TransitionModel) (prev_state : Vec)
    (actions : List Vec) (prev_belief : Vec) (observations : Option (List Vec))
    (nonterminals : Option (List ℝ)) (pnoise qnoise : List Vec) :
    Option (List (List Vec)) := do
  let A ← m.runSteps prev_state actions prev_belief observations nonterminals
    pnoise qnoise actions.length
  let b ← stack1 (A.beliefs.drop 1)
  let ps ← stack1 (A.prior_states.drop 1)
  let pm ← stack1 (A.prior_means.drop 1)
  let pd ← stack1 (A.prior_std_devs.drop 1)
  let hidden := [b, ps, pm, pd]
  match observations with
  | none => pure hidden
  | some _ => do
      let qs ← stack1 (A.posterior_states.drop 1)
      let qm ← stack1 (A.posterior_means.drop 1)
      let qd ← stack1 (A.posterior_std_devs.drop 1)
      pure (hidden ++ [qs, qm, qd])

/-! ### Specification-side view of the RSSM recursion

The spec (section 4.1) describes the loop as a clean recursion over per-step
inputs.  `specScan` below follows the spec's words; the refinement theorem
proves that the array-writing loop of `TransitionModel.forward` computes
exactly this recursion. -/

/-- One step's worth of inputs, as the spec presents them: the action, the
prior reparameterization noise, optionally the observation embedding with its
posterior noise, and optionally the nonterminal mask factor applied to the
incoming state (absent at the very first step). -/
structure StepIn where
  action : Vec
  pnoise : Vec
  obs : Option (Vec × Vec)
  mask : Option ℝ

/-- Apply an optional nonterminal mask factor to a state. -/
def maskState (s : Vec) : Option ℝ → Vec
  | none => s
  | some c => s.map (fun x => x * c)

/-- The state carried into the next recurrence step: the posterior sample when
observations were supplied, else the prior sample. -/
def nextState (o : StepOut) : Vec :=
  match o.posterior with
  | some q => q.2.2
  | none => o.prior_state

/-- Spec-side recursion: starting from the externally given state and belief,
run the step equations in time order, carrying the selected state and belief. -/
def TransitionModel.specScan (m : TransitionModel) :
    Vec → Vec → List StepIn → List StepOut
  | _, _, [] => []
  | s, b, i :: rest =>
      let o := m.stepCompute (maskState s i.mask) b i.action i.pnoise i.obs
      o :: m.specScan (nextState o) o.belief rest

/-- Bundle the loop inputs of `TransitionModel.forward` into per-step records. -/
def buildStepIns (actions pnoise : List Vec) (observations : Option (List Vec))
    (qnoise : List Vec) (nonterminals : Option (List ℝ)) : List StepIn :=
  (List.range actions.length).map fun t =>
    { action := actions.getD t []
      pnoise := pnoise.getD t []
      obs := observations.map fun os => (os.getD t [], qnoise.getD t [])
      mask := if t = 0 then none
              else nonterminals.map fun ns => ns.getD (t - 1) 0 }

/-- Posterior state of a step, `[]` when no observation was given. -/
def postState (o : StepOut) : Vec := (o.posterior.map (fun q => q.2.2)).getD []

/-- Posterior mean of a step, `[]` when no observation was given. -/
def postMean (o : StepOut) : Vec := (o.posterior.map (fun q => q.1)).getD []

/-- Posterior std-dev of a step, `[]` when no observation was given. -/
def postStd (o : StepOut) : Vec := (o.posterior.map (fun q => q.2.1)).getD []

/-- The stacked output bundle the spec describes: four sequences, extended with
the three posterior sequences when observations were supplied. -/
def specOutputs (outs : List StepOut) (hasObs : Bool) : List (List Vec) :=
  [outs.map (fun o => o.belief), outs.map (fun o => o.prior_state),
   outs.map (fun o => o.prior_mean), outs.map (fun o => o.prior_std_dev)]
  ++ (if hasObs then
        [outs.map postState, outs.map postMean, outs.map postStd]
      else [])

/-! ### Action distribution objects

The actor composes `Normal → TanhTransform → Independent(…, 1) → SampleDist`.
Each stage is modelled as a capability record holding exactly what the code
uses: reparameterized sampling (as a function of explicit noise) and
log-density evaluation. -/

/-- Torch `Normal.log_prob`:
`-((x - μ)²)/(2σ²) - log σ - log √(2π)`. -/
def normalLogPdf (μ σ x : ℝ) : ℝ :=
  -((x - μ) ^ 2) / (2 * σ ^ 2) - Real.log σ - Real.log (Real.sqrt (2 * Real.pi))

/-- Torch `TanhTransform`'s inverse, `atanh y = ½ log((1+y)/(1−y))`. -/
def atanh (y : ℝ) : ℝ := Real.log ((1 + y) / (1 - y)) / 2

/-- Torch `TanhTransform.log_abs_det_jacobian(x, y) = 2(log 2 − x − softplus(−2x))`. -/
def tanhLogAbsDetJacobian (x : ℝ) : ℝ :=
  2 * (Real.log 2 - x - softplus (-2 * x))

/-- A distribution over a feature vector with per-dimension (elementwise)
log-densities, supporting reparameterized sampling from explicit noise. -/
structure ElemDist where
  rsample : Vec → Vec
  logProb : Vec → Vec

/-- A distribution over a feature vector with a joint (scalar) log-density. -/
structure JointDist where
  rsample : Vec → Vec
  logProb : Vec → ℝ

/-- `torch.distributions.Normal(mean, std)` over a feature vector:
reparameterized sample `μ + σ ⊙ ε`, elementwise Gaussian log-density. -/
def NormalE (μ σ : Vec) : ElemDist where
  rsample := fun ε => vadd μ (vmul σ ε)
  logProb := fun x =>
    List.zipWith (fun p xi => normalLogPdf p.1 p.2 xi) (μ.zip σ) x

/-- `TransformedDistribution(d, [TanhTransform()])`: samples are pushed through
`tanh`; the log-density pulls the value back with `atanh` and subtracts the
log-abs-det Jacobian of `tanh`. -/
def TanhTransformedE (d : ElemDist) : ElemDist where
  rsample := fun ε => (d.rsample ε).map Real.tanh
  logProb := fun y =>
    let x := y.map atanh
    List.zipWith (fun a b => a - b) (d.logProb x) (x.map tanhLogAbsDetJacobian)

/-- `Independent(d, 1)`: sums the elementwise log-densities over the last
dimension, making a joint distribution over the action vector. -/
def Independent1 (d : ElemDist) : JointDist where
  rsample := d.rsample
  logProb := fun y => (d.logProb y).sum

/-- A batch of joint distributions, one per batch element (the distribution
object the actor builds has batch shape `(batch,)`). -/
structure BatchJointDist where
  family : List JointDist

/-- Batched reparameterized sampling, one noise vector per batch element. -/
def BatchJointDist.rsample (d : BatchJointDist) (ε : List Vec) : List Vec :=
  List.zipWith (fun j e => j.rsample e) d.family ε

/-- Batched log-density, one scalar per batch element. -/
def BatchJointDist.logProbB (d : BatchJointDist) (y : List Vec) : List ℝ :=
  List.zipWith (fun j r => j.logProb r) d.family y

/-- `SampleDist`: wraps a distribution together with its Monte-Carlo sample
count (`self._samples`). -/
structure SampleDist where
  dist : BatchJointDist
  samples : Nat

/-- `SampleDist(dist)` with the default `samples=100`, as `ActorModel.forward`
constructs it. -/
def SampleDist.ofDist (d : BatchJointDist) : SampleDist := ⟨d, 100⟩

/-- `__getattr__` delegation: `rsample` is not defined on `SampleDist`, so it is
forwarded to the wrapped distribution. -/
def SampleDist.rsample (sd : SampleDist) (ε : List Vec) : List Vec :=
  sd.dist.rsample ε

/-- `__getattr__` delegation: `log_prob` is not defined on `SampleDist`, so it
is forwarded to the wrapped distribution (exact, not Monte-Carlo). -/
def SampleDist.log_prob (sd : SampleDist) (y : List Vec) : List ℝ :=
  sd.dist.logProbB y

/-- Fallback distribution used only for out-of-range `getD` defaults. -/
def jdDefault : JointDist := ⟨fun _ => [], fun _ => 0⟩

/-- `self._dist.expand((self._samples, *batch_shape)).rsample()`: a
`samples × batch` tensor of reparameterized draws, with explicit noise
`noise s b` for the draw of sample `s` at batch element `b`. -/
def SampleDist.sampleTensor (sd : SampleDist) (noise : Nat → Nat → Vec) :
    List (List Vec) :=
  (List.range sd.samples).map fun s =>
    (List.range sd.dist.family.length).map fun b =>
      (sd.dist.family.getD b jdDefault).rsample (noise s b)

/-- `dist.log_prob(sample)` for the expanded distribution: the `samples × batch`
matrix of joint log-densities of the drawn samples. -/
def SampleDist.logprobTensor (sd : SampleDist) (noise : Nat → Nat → Vec) :
    List (List ℝ) :=
  (sd.sampleTensor noise).map fun row =>
    List.zipWith (fun j y => j.logProb y) sd.dist.family row

/-- Sum of a list of matrices (elementwise, via `zipWith`). -/
def sumMats : List (List Vec) → List Vec
  | [] => []
  | [mat] => mat
  | mat :: rest => List.zipWith vadd mat (sumMats rest)

/-- `torch.mean(x, 0)` for a `samples × batch × features` tensor. -/
def meanDim0 (l : List (List Vec)) : List Vec :=
  (sumMats l).map fun row => row.map (fun x => x / (l.length : ℝ))

/-- Sum of a list of vectors (elementwise, via `zipWith`). -/
def sumVecs : List Vec → Vec
  | [] => []
  | [v] => v
  | v :: rest => vadd v (sumVecs rest)

/-- `torch.mean(x, 0)` for a `samples × batch` matrix. -/
def meanVecs (l : List Vec) : Vec :=
  (sumVecs l).map (fun x => x / (l.length : ℝ))

/-- `torch.argmax` on a vector: index of the first maximal entry. -/
def argmaxIdx : List ℝ → Nat
  | [] => 0
  | [_] => 0
  | x :: y :: rest =>
      let j := argmaxIdx (y :: rest)
      if x < (y :: rest).getD j 0 then j + 1 else 0

/-- `torch.gather(src, 0, index)` on a rank-3 tensor:
`out[i][b][f] = src[index[i][b][f]][b][f]`. -/
def gatherDim0 (src : List (List Vec)) (index : List (List (List Nat))) :
    List (List Vec) :=
  index.map fun mat =>
    (List.range mat.length).map fun b =>
      (List.range ((mat.getD b []).length)).map fun f =>
        ((src.getD ((mat.getD b []).getD f 0) []).getD b []).getD f 0

/-- `SampleDist.mean`: Monte-Carlo mean, `torch.mean(sample, 0)` over the
expanded draws. -/
def SampleDist.mean (sd : SampleDist) (noise : Nat → Nat → Vec) : List Vec :=
  meanDim0 (sd.sampleTensor noise)

/-- `SampleDist.mode`: per batch element, pick the drawn sample of maximal
log-density, through `argmax`/`reshape`/`expand`/`gather`/`squeeze` as in the
source. -/
def SampleDist.mode (sd : SampleDist) (noise : Nat → Nat → Vec) : List Vec :=
  let sample := sd.sampleTensor noise
  let logprob := sd.logprobTensor noise
  let batch_size := (sample.getD 0 []).length
  let feature_size := ((sample.getD 0 []).getD 0 []).length
  let indices : List (List (List Nat)) :=
    [(List.range batch_size).map fun b =>
      List.replicate feature_size (argmaxIdx (logprob.map fun row => row.getD b 0))]
  (gatherDim0 sample indices).getD 0 []

/-- `SampleDist.entropy`: negated Monte-Carlo mean of the log-densities. -/
def SampleDist.entropy (sd : SampleDist) (noise : Nat → Nat → Vec) : Vec :=
  (meanVecs (sd.logprobTensor noise)).map (fun x => -x)

/-! ### ActorModel -/

/-- The policy head: learned parameters of `ActorModel.__init__`. -/
structure ActorModel where
  act_fn : ℝ → ℝ
  fc1 : Linear
  fc2 : Linear
  fc3 : Linear
  fc4 : Linear
  fc5 : Linear
  min_std : ℝ
  init_std : ℝ
  mean_scale : ℝ

/-- Apply a linear layer rowwise across the batch. -/
def applyB (l : Linear) (x : List Vec) : List Vec := x.map l.apply

/-- The raw five-layer network output of size `2 × action_size` per batch row:
`fc5(act(fc4(act(fc3(act(fc2(act(fc1(cat(belief, state))))))))))`. -/
def ActorModel.netOutput (m : ActorModel) (belief state : List Vec) : List Vec :=
  let x := List.zipWith (fun b s => b ++ s) belief state
  let h1 := (applyB m.fc1 x).map (List.map m.act_fn)
  let h2 := (applyB m.fc2 h1).map (List.map m.act_fn)
  let h3 := (applyB m.fc3 h2).map (List.map m.act_fn)
  let h4 := (applyB m.fc4 h3).map (List.map m.act_fn)
  applyB m.fc5 h4

/-- Lines 167–169 of the source: split the network output into mean and raw
std, squash the mean through `mean_scale · tanh(mean / mean_scale)`, and map
the raw std through `softplus(std + raw_init_std) + min_std` with
`raw_init_std = log(exp(init_std) − 1)`. -/
def ActorModel.distParams (m : ActorModel) (belief state : List Vec) :
    List Vec × List Vec :=
  let raw_init_std := Real.log (Real.exp m.init_std - 1)
  let out := m.netOutput belief state
  (out.map fun row =>
      (chunkHalf row).1.map (fun v => m.mean_scale * Real.tanh (v / m.mean_scale)),
   out.map fun row =>
      (chunkHalf row).2.map (fun v => softplus (v + raw_init_std) + m.min_std))

/-- `ActorModel.forward`: build the tanh-transformed independent Normal wrapped
in a `SampleDist`; the action is the Monte-Carlo mean when `deterministic`,
else a reparameterized sample; the log-probability, when requested, is the
delegated exact log-density of the action. -/
def ActorModel.forward (m : ActorModel) (belief state : List Vec)
    (deterministic with_logprob : Bool) (meanNoise : Nat → Nat → Vec)
    (sampleNoise : List Vec) : List Vec × Option (List ℝ) :=
  let p := m.distParams belief state
  let dist := SampleDist.ofDist
    ⟨List.zipWith (fun μ σ => Independent1 (TanhTransformedE (NormalE μ σ))) p.1 p.2⟩
  let action := if deterministic then dist.mean meanNoise else dist.rsample sampleNoise
  let logp := if with_logprob then some (dist.log_prob action) else none
  (action, logp)

/-- Spec-side: the exact log-density of the tanh-transformed, independent-joint
Normal distribution at an action `y`, following the spec's words: the Gaussian
log-density at `atanh y` minus the tanh change-of-variables term `log(1 − y²)`,
summed over action dimensions. -/
def tanhNormalLogDensity (μ σ y : Vec) : ℝ :=
  (List.zipWith (fun p yi => normalLogPdf p.1 p.2 (atanh yi) - Real.log (1 - yi ^ 2))
    (μ.zip σ) y).sum

/-! ### Refinement: the array-writing loop computes the spec-side recursion -/

/-- Default step input used only as a `getD` fallback. -/
def inDefault : StepIn := ⟨[], [], none, none⟩

/-- Default step output used only as a `getD` fallback. -/
def outDefault : StepOut := ⟨[], [], [], [], none⟩

/-- The shape of a working list after `k` loop iterations: the initial value at
index `0`, the computed values at indices `1..k`, and placeholders beyond. -/
def fill (L : Nat) (init : Vec) (vals : List Vec) : List Vec :=
  init :: (vals ++ List.replicate (L - vals.length) ([] : Vec))

/-- The working arrays after `k` loop iterations, described in terms of the
spec-side step outputs. -/
def arraysOf (L : Nat) (outs : List StepOut) (pb ps : Vec) (k : Nat) : Arrays :=
  { beliefs := fill L pb ((outs.take k).map (fun o => o.belief))
    prior_states := fill L ps ((outs.take k).map (fun o => o.prior_state))
    prior_means := fill L [] ((outs.take k).map (fun o => o.prior_mean))
    prior_std_devs := fill L [] ((outs.take k).map (fun o => o.prior_std_dev))
    posterior_states := fill L ps ((outs.take k).map postState)
    posterior_means := fill L [] ((outs.take k).map postMean)
    posterior_std_devs := fill L [] ((outs.take k).map postStd) }

/-- The std-floor invariant carried by the working arrays: every entry of every
std-dev vector exceeds the configured floor. -/
def stdInv (c : ℝ) (A : Arrays) : Prop :=
  (∀ v ∈ A.prior_std_devs, ∀ x ∈ v, c < x) ∧
  (∀ v ∈ A.posterior_std_devs, ∀ x ∈ v, c < x)

/-! ### Concrete instances used to witness the theorems on live inputs -/

/-- A linear layer with no output features. -/
def L0 : Linear := ⟨[], []⟩

/-- A linear layer with two output features over an empty input. -/
def L2 : Linear := ⟨[[], []], [0, 0]⟩

/-- A GRU cell over zero-dimensional vectors. -/
def G0 : GRUCell := ⟨[], [], [], []⟩

/-- A transition model over zero-dimensional features. -/
def TM0 : TransitionModel := ⟨id, 1 / 10, L0, G0, L0, L0, L0, L0⟩

/-- An actor with one action dimension, zero weights, `mean_scale = 1`,
`min_std = 0` and `init_std = log 2` (so the std of the policy is `log 2`). -/
def AM0 : ActorModel := ⟨id, L0, L0, L0, L0, L2, 0, Real.log 2, 1⟩

/-- A concrete array state used to witness the masking claim. -/
def A1 : Arrays :=
  ⟨[[], []], [[], [1]], [[], []], [[], []], [[], [1]], [[], []], [[], []]⟩

/-- A concrete one-element joint distribution. -/
def J1 : JointDist := ⟨fun _ => [0], fun _ => 0⟩

/-- A concrete `SampleDist` over a one-element batch. -/
def SD1 : SampleDist := SampleDist.ofDist ⟨[J1]⟩

/-- Constant noise source used to instantiate the Monte-Carlo claims. -/
def w8noise : Nat → Nat → Vec := fun _ _ => [0]

theorem specScan_length (m : TransitionModel) (s b : Vec) (ins : List StepIn) :
    (m.specScan s b ins).length = ins.length := by
  induction ins generalizing s b with
  | nil => rfl
  | cons i rest ih => simp [TransitionModel.specScan, ih]

theorem buildStepIns_length (actions pnoise : List Vec)
    (observations : Option (List Vec)) (qnoise : List Vec)
    (nonterminals : Option (List ℝ)) :
    (buildStepIns actions pnoise observations qnoise nonterminals).length
      = actions.length := by
  simp [buildStepIns]

theorem buildStepIns_getD (actions pnoise : List Vec)
    (observations : Option (List Vec)) (qnoise : List Vec)
    (nonterminals : Option (List ℝ)) (t : Nat) (h : t < actions.length) :
    (buildStepIns actions pnoise observations qnoise nonterminals).getD t inDefault
      = { action := actions.getD t []
          pnoise := pnoise.getD t []
          obs := observations.map fun os => (os.getD t [], qnoise.getD t [])
          mask := if t = 0 then none
                  else nonterminals.map fun ns => ns.getD (t - 1) 0 } := by
  unfold buildStepIns
  rw [List.getD_eq_getElem?_getD, List.getElem?_map, List.getElem?_range h]
  rfl

theorem specScan_getD_zero (m : TransitionModel) (s b : Vec) (ins : List StepIn)
    (h : 0 < ins.length) :
    (m.specScan s b ins).getD 0 outDefault
      = m.stepCompute (maskState s ((ins.getD 0 inDefault).mask)) b
          ((ins.getD 0 inDefault).action) ((ins.getD 0 inDefault).pnoise)
          ((ins.getD 0 inDefault).obs) := by
  cases ins with
  | nil => exact absurd h (by simp)
  | cons i rest => rfl

theorem specScan_getD_succ (m : TransitionModel) (s b : Vec) (ins : List StepIn)
    (t : Nat) (h : t + 1 < ins.length) :
    (m.specScan s b ins).getD (t + 1) outDefault
      = m.stepCompute
          (maskState (nextState ((m.specScan s b ins).getD t outDefault))
            ((ins.getD (t + 1) inDefault).mask))
          (((m.specScan s b ins).getD t outDefault).belief)
          ((ins.getD (t + 1) inDefault).action)
          ((ins.getD (t + 1) inDefault).pnoise)
          ((ins.getD (t + 1) inDefault).obs) := by
  induction ins generalizing s b t with
  | nil => exact absurd h (by simp)
  | cons i rest ih =>
      cases t with
      | zero =>
          cases rest with
          | nil => simp at h
          | cons j rest' => rfl
      | succ t' =>
          have h' : t' + 1 < rest.length := by simpa using h
          simpa [TransitionModel.specScan] using
            ih (nextState (m.stepCompute (maskState s i.mask) b i.action i.pnoise i.obs))
              (m.stepCompute (maskState s i.mask) b i.action i.pnoise i.obs).belief t' h'

/-- When every step input carries an observation, every step output carries a
posterior triple. -/
theorem specScan_posterior_isSome (m : TransitionModel) (s b : Vec)
    (ins : List StepIn) (hobs : ∀ i ∈ ins, i.obs.isSome = true) :
    ∀ o ∈ m.specScan s b ins, o.posterior.isSome = true := by
  induction ins generalizing s b with
  | nil => intro o ho; simp [TransitionModel.specScan] at ho
  | cons i rest ih =>
      intro o ho
      simp only [TransitionModel.specScan, List.mem_cons] at ho
      rcases ho with rfl | ho
      · have := hobs i (by simp)
        simp only [TransitionModel.stepCompute]
        rcases Option.isSome_iff_exists.mp this with ⟨v, hv⟩
        simp [hv]
      · exact ih _ _ (fun j hj => hobs j (by simp [hj])) o ho

/-- When no step input carries an observation, no step output carries a
posterior triple. -/
theorem specScan_posterior_isNone (m : TransitionModel) (s b : Vec)
    (ins : List StepIn) (hobs : ∀ i ∈ ins, i.obs = none) :
    ∀ o ∈ m.specScan s b ins, o.posterior = none := by
  induction ins generalizing s b with
  | nil => intro o ho; simp [TransitionModel.specScan] at ho
  | cons i rest ih =>
      intro o ho
      simp only [TransitionModel.specScan, List.mem_cons] at ho
      rcases ho with rfl | ho
      · simp [TransitionModel.stepCompute, hobs i (by simp)]
      · exact ih _ _ (fun j hj => hobs j (by simp [hj])) o ho

theorem fill_getElem_zero (L : Nat) (init : Vec) (vals : List Vec) :
    (fill L init vals)[0]? = some init := by
  simp [fill]

theorem fill_getElem_succ (L : Nat) (init : Vec) (vals : List Vec) (i : Nat)
    (h : i < vals.length) :
    (fill L init vals)[i + 1]? = some (vals.getD i []) := by
  have h1 : (vals ++ List.replicate (L - vals.length) ([] : Vec))[i]? = vals[i]? := by
    rw [List.getElem?_append]; simp [h]
  rw [List.getD_eq_getElem vals [] h]
  simp only [fill, List.getElem?_cons_succ, h1, List.getElem?_eq_getElem h]

theorem fill_set (L : Nat) (init : Vec) (vals : List Vec) (v : Vec)
    (h : vals.length < L) :
    (fill L init vals).set (vals.length + 1) v = fill L init (vals ++ [v]) := by
  have hrep : List.replicate (L - vals.length) ([] : Vec)
      = [] :: List.replicate (L - (vals.length + 1)) ([] : Vec) := by
    have : L - vals.length = (L - (vals.length + 1)) + 1 := by omega
    rw [this, List.replicate_succ]
  simp only [fill, List.set_cons_succ, hrep, List.length_append, List.length_singleton]
  rw [List.set_append]
  simp

theorem fill_snoc_nil (L : Nat) (init : Vec) (vals : List Vec)
    (h : vals.length < L) :
    fill L init (vals ++ [([] : Vec)]) = fill L init vals := by
  have hrep : List.replicate (L - vals.length) ([] : Vec)
      = [] :: List.replicate (L - (vals.length + 1)) ([] : Vec) := by
    have : L - vals.length = (L - (vals.length + 1)) + 1 := by omega
    rw [this, List.replicate_succ]
  simp [fill, hrep]

theorem take_map_getD (l : List StepOut) (f : StepOut → Vec) (k j : Nat)
    (hj : j < k) (hk : k ≤ l.length) :
    ((l.take k).map f).getD j [] = f (l.getD j outDefault) := by
  have hjl : j < l.length := lt_of_lt_of_le hj hk
  rw [List.getD_eq_getElem?_getD, List.getElem?_map]
  rw [show (l.take k)[j]? = l[j]? from by rw [List.getElem?_take]; simp [hj]]
  rw [List.getElem?_eq_getElem hjl, List.getD_eq_getElem l outDefault hjl]
  rfl

theorem getElem?_eq_some_getD {α : Type} (l : List α) (d : α) (k : Nat)
    (h : k < l.length) : l[k]? = some (l.getD k d) := by
  rw [List.getD_eq_getElem l d h, List.getElem?_eq_getElem h]

theorem take_succ_map (l : List StepOut) (f : StepOut → Vec) (k : Nat)
    (hk : k < l.length) :
    (l.take (k + 1)).map f = (l.take k).map f ++ [f (l.getD k outDefault)] := by
  rw [List.take_succ, List.map_append, List.getElem?_eq_getElem hk,
    List.getD_eq_getElem l outDefault hk]
  rfl

theorem buildStepIns_obs_isSome (actions pnoise : List Vec)
    (observations : Option (List Vec)) (qnoise : List Vec)
    (nonterminals : Option (List ℝ)) (h : observations.isSome = true) :
    ∀ i ∈ buildStepIns actions pnoise observations qnoise nonterminals,
      i.obs.isSome = true := by
  intro i hi
  simp only [buildStepIns, List.mem_map] at hi
  rcases hi with ⟨t, _, rfl⟩
  simpa using h

theorem buildStepIns_obs_none (actions pnoise : List Vec) (qnoise : List Vec)
    (nonterminals : Option (List ℝ)) :
    ∀ i ∈ buildStepIns actions pnoise none qnoise nonterminals, i.obs = none := by
  intro i hi
  simp only [buildStepIns, List.mem_map] at hi
  rcases hi with ⟨t, _, rfl⟩
  rfl

/-- Reading the belief at loop index `k` from the array state after `k`
iterations yields the carried belief of the spec-side recursion. -/
theorem arraysOf_beliefs_read (L : Nat) (outs : List StepOut) (pb ps : Vec)
    (k : Nat) (hk : k < L) (houts : outs.length = L) :
    (arraysOf L outs pb ps k).beliefs[k]?
      = some (if k = 0 then pb else (outs.getD (k - 1) outDefault).belief) := by
  cases k with
  | zero => simpa [arraysOf] using fill_getElem_zero L pb _
  | succ j =>
      have hlen : ((outs.take (j + 1)).map (fun o => o.belief)).length = j + 1 := by
        simp [List.length_take]; omega
      have h2 := fill_getElem_succ L pb ((outs.take (j + 1)).map (fun o => o.belief)) j
        (by omega)
      show (fill L pb ((outs.take (j + 1)).map (fun o => o.belief)))[j + 1]? = _
      rw [h2, take_map_getD _ _ (j + 1) j (by omega) (by omega),
        if_neg (by omega : ¬ j + 1 = 0)]
      simp only [Nat.add_sub_cancel]

/-- Reading and masking the selected previous state at loop index `k` from the
array state after `k` iterations yields the carried, masked state of the
spec-side recursion. -/
theorem arraysOf_selectedState (L : Nat) (outs : List StepOut) (pb ps : Vec)
    (observations : Option (List Vec)) (nonterminals : Option (List ℝ))
    (k : Nat) (hk : k < L) (houts : outs.length = L)
    (hsome : observations.isSome = true →
      ∀ o ∈ outs, o.posterior.isSome = true)
    (hnone : observations = none → ∀ o ∈ outs, o.posterior = none)
    (hnt : ∀ ns, nonterminals = some ns → L - 1 ≤ ns.length) :
    selectedState observations.isSome nonterminals k (arraysOf L outs pb ps k)
      = some (maskState
          (if k = 0 then ps else nextState (outs.getD (k - 1) outDefault))
          (if k = 0 then none
           else nonterminals.map fun ns => ns.getD (k - 1) 0)) := by
  have hread : (if observations.isSome then (arraysOf L outs pb ps k).posterior_states
      else (arraysOf L outs pb ps k).prior_states)[k]?
      = some (if k = 0 then ps else nextState (outs.getD (k - 1) outDefault)) := by
    cases k with
    | zero =>
        cases observations.isSome <;>
          simpa [arraysOf] using fill_getElem_zero L ps _
    | succ j =>
        have hj : j < outs.length := by omega
        have hmem : outs.getD j outDefault ∈ outs := by
          rw [List.getD_eq_getElem outs outDefault hj]
          exact List.getElem_mem hj
        cases hO : observations with
        | none =>
            have hpost : (outs.getD j outDefault).posterior = none :=
              hnone hO _ hmem
            have hlen : ((outs.take (j + 1)).map (fun o => o.prior_state)).length
                = j + 1 := by simp [List.length_take]; omega
            have h2 := fill_getElem_succ L ps
              ((outs.take (j + 1)).map (fun o => o.prior_state)) j (by omega)
            simp only [hO, Option.isSome_none, Bool.false_eq_true, if_false, arraysOf]
            rw [h2, take_map_getD _ _ (j + 1) j (by omega) (by omega),
              if_neg (by omega : ¬ j + 1 = 0)]
            simp only [Nat.add_sub_cancel, nextState, hpost]
        | some os =>
            have hpost : (outs.getD j outDefault).posterior.isSome = true :=
              hsome (by simp [hO]) _ hmem
            rcases Option.isSome_iff_exists.mp hpost with ⟨q, hq⟩
            have hlen : ((outs.take (j + 1)).map postState).length = j + 1 := by
              simp [List.length_take]; omega
            have h2 := fill_getElem_succ L ps ((outs.take (j + 1)).map postState) j
              (by omega)
            simp only [hO, Option.isSome_some, if_true, arraysOf]
            rw [h2, take_map_getD _ _ (j + 1) j (by omega) (by omega),
              if_neg (by omega : ¬ j + 1 = 0)]
            simp only [Nat.add_sub_cancel, nextState, postState, hq,
              Option.map_some', Option.getD_some]
  cases k with
  | zero =>
      cases nonterminals with
      | none => simp [selectedState, hread, maskState]
      | some ns => simp [selectedState, hread, maskState]
  | succ j =>
      cases nonterminals with
      | none => simp [selectedState, hread, maskState]
      | some ns =>
          have hns : L - 1 ≤ ns.length := hnt ns rfl
          have hj : j < ns.length := by omega
          simp only [selectedState, hread, Option.some_bind]
          have hne : (j + 1 = 0) = False := by simp
          simp only [hne, if_false, Nat.add_sub_cancel,
            getElem?_eq_some_getD ns 0 j hj, Option.some_bind]
          rfl



theorem fill_set_take (L : Nat) (init : Vec) (outs : List StepOut)
    (f : StepOut → Vec) (k : Nat) (hk : k < L) (houts : outs.length = L) :
    (fill L init ((outs.take k).map f)).set (k + 1) (f (outs.getD k outDefault))
      = fill L init ((outs.take (k + 1)).map f) := by
  have hlen : ((outs.take k).map f).length = k := by
    simp [List.length_take]; omega
  have h1 := fill_set L init ((outs.take k).map f) (f (outs.getD k outDefault))
    (by rw [hlen]; exact hk)
  rw [hlen] at h1
  rw [h1, ← take_succ_map outs f k (by omega)]

theorem fill_take_succ_nil (L : Nat) (init : Vec) (outs : List StepOut)
    (f : StepOut → Vec) (k : Nat) (hk : k < L) (houts : outs.length = L)
    (hf : f (outs.getD k outDefault) = []) :
    fill L init ((outs.take (k + 1)).map f) = fill L init ((outs.take k).map f) := by
  rw [take_succ_map outs f k (by omega), hf]
  exact fill_snoc_nil L init _ (by simp [List.length_take]; omega)

/-- Closed-form characterization of the `t`-th spec-side step output in terms
of the `t-1`-st: the step computation applied to the masked carried state and
carried belief. -/
theorem specScan_step_closed (m : TransitionModel) (prev_state prev_belief : Vec)
    (actions : List Vec) (observations : Option (List Vec))
    (nonterminals : Option (List ℝ)) (pnoise qnoise : List Vec) (k : Nat)
    (hkL : k < actions.length) :
    (m.specScan prev_state prev_belief
        (buildStepIns actions pnoise observations qnoise
          nonterminals)).getD k outDefault
      = m.stepCompute
          (maskState
            (if k = 0 then prev_state
             else nextState ((m.specScan prev_state prev_belief
               (buildStepIns actions pnoise observations qnoise
                 nonterminals)).getD (k - 1) outDefault))
            (if k = 0 then none
             else nonterminals.map fun ns => ns.getD (k - 1) 0))
          (if k = 0 then prev_belief
           else ((m.specScan prev_state prev_belief
             (buildStepIns actions pnoise observations qnoise
               nonterminals)).getD (k - 1) outDefault).belief)
          (actions.getD k []) (pnoise.getD k [])
          (observations.map fun os => (os.getD k [], qnoise.getD k [])) := by
  have hinlen : (buildStepIns actions pnoise observations qnoise
      nonterminals).length = actions.length := buildStepIns_length _ _ _ _ _
  cases k with
  | zero =>
      rw [specScan_getD_zero m _ _ _ (by rw [hinlen]; omega),
        buildStepIns_getD _ _ _ _ _ _ hkL]
      simp
  | succ j =>
      rw [specScan_getD_succ m _ _ _ j (by rw [hinlen]; omega),
        buildStepIns_getD _ _ _ _ _ _ hkL]
      simp


/-- Invariant of the time loop: after `k` iterations the working arrays hold
the initial values at index `0` and the first `k` spec-side step outputs at
indices `1..k`. -/
theorem runSteps_spec (m : TransitionModel) (prev_state prev_belief : Vec)
    (actions : List Vec) (observations : Option (List Vec))
    (nonterminals : Option (List ℝ)) (pnoise qnoise : List Vec)
    (hpn : actions.length ≤ pnoise.length)
    (hos : ∀ os, observations = some os → actions.length ≤ os.length)
    (hqn : observations.isSome = true → actions.length ≤ qnoise.length)
    (hnt : ∀ ns, nonterminals = some ns → actions.length - 1 ≤ ns.length)
    (k : Nat) (hk : k ≤ actions.length) :
    m.runSteps prev_state actions prev_belief observations nonterminals pnoise
        qnoise k
      = some (arraysOf actions.length
          (m.specScan prev_state prev_belief
            (buildStepIns actions pnoise observations qnoise nonterminals))
          prev_belief prev_state k) := by
  induction k with
  | zero =>
      simp [TransitionModel.runSteps, arraysOf, initArrays, fill,
        List.replicate_succ]
  | succ k ih =>
      have hkL : k < actions.length := by omega
      have hinlen : (buildStepIns actions pnoise observations qnoise
          nonterminals).length = actions.length := buildStepIns_length _ _ _ _ _
      have houtlen : (m.specScan prev_state prev_belief
          (buildStepIns actions pnoise observations qnoise nonterminals)).length
          = actions.length := by rw [specScan_length, hinlen]
      have hsome : observations.isSome = true →
          ∀ o ∈ m.specScan prev_state prev_belief
            (buildStepIns actions pnoise observations qnoise nonterminals),
            o.posterior.isSome = true := fun h =>
        specScan_posterior_isSome _ _ _ _
          (buildStepIns_obs_isSome _ _ _ _ _ h)
      have hnone : observations = none →
          ∀ o ∈ m.specScan prev_state prev_belief
            (buildStepIns actions pnoise observations qnoise nonterminals),
            o.posterior = none := by
        intro h
        subst h
        exact specScan_posterior_isNone _ _ _ _ (buildStepIns_obs_none _ _ _ _)
      have ho_k := specScan_step_closed m prev_state prev_belief actions
        observations nonterminals pnoise qnoise k hkL
      have hsel := arraysOf_selectedState actions.length
        (m.specScan prev_state prev_belief
          (buildStepIns actions pnoise observations qnoise nonterminals))
        prev_belief prev_state observations nonterminals k hkL houtlen hsome
        hnone hnt
      have hbel := arraysOf_beliefs_read actions.length
        (m.specScan prev_state prev_belief
          (buildStepIns actions pnoise observations qnoise nonterminals))
        prev_belief prev_state k hkL houtlen
      have hact : actions[k]? = some (actions.getD k []) :=
        getElem?_eq_some_getD _ _ _ hkL
      have hpn' : pnoise[k]? = some (pnoise.getD k []) :=
        getElem?_eq_some_getD _ _ _ (lt_of_lt_of_le hkL hpn)
      have hkout : k < (m.specScan prev_state prev_belief
          (buildStepIns actions pnoise observations qnoise
            nonterminals)).length := by omega
      have hmemk : (m.specScan prev_state prev_belief
          (buildStepIns actions pnoise observations qnoise
            nonterminals)).getD k outDefault
          ∈ m.specScan prev_state prev_belief
            (buildStepIns actions pnoise observations qnoise nonterminals) := by
        rw [List.getD_eq_getElem _ outDefault hkout]
        exact List.getElem_mem hkout
      simp only [TransitionModel.runSteps]
      rw [ih (by omega), Option.some_bind]
      simp only [stepWrite, hsel, hbel, hact, hpn', Option.some_bind]
      cases hO : observations with
      | none =>
          simp only [hO, Option.map_none'] at ho_k
          have hpost : ((m.specScan prev_state prev_belief
              (buildStepIns actions pnoise observations qnoise
                nonterminals)).getD k outDefault).posterior = none :=
            hnone hO _ hmemk
          simp only [hO] at hsel hbel hpost houtlen ⊢
          simp only [Option.pure_def, Option.bind_eq_bind, Option.some_bind,
            ← ho_k, hpost, arraysOf, Option.some.injEq, Arrays.mk.injEq]
          refine ⟨?_, ?_, ?_, ?_, ?_, ?_, ?_⟩
          · exact fill_set_take _ _ _ _ k hkL houtlen
          · exact fill_set_take _ _ _ _ k hkL houtlen
          · exact fill_set_take _ _ _ _ k hkL houtlen
          · exact fill_set_take _ _ _ _ k hkL houtlen
          · exact (fill_take_succ_nil _ _ _ _ k hkL houtlen
              (by simp only [postState, hpost, Option.map_none', Option.getD_none])).symm
          · exact (fill_take_succ_nil _ _ _ _ k hkL houtlen
              (by simp only [postMean, hpost, Option.map_none', Option.getD_none])).symm
          · exact (fill_take_succ_nil _ _ _ _ k hkL houtlen
              (by simp only [postStd, hpost, Option.map_none', Option.getD_none])).symm
      | some os =>
          have hosk : os[k]? = some (os.getD k []) :=
            getElem?_eq_some_getD _ _ _ (lt_of_lt_of_le hkL (hos os hO))
          have hqnk : qnoise[k]? = some (qnoise.getD k []) :=
            getElem?_eq_some_getD _ _ _
              (lt_of_lt_of_le hkL (hqn (by rw [hO]; rfl)))
          simp only [hO, Option.map_some'] at ho_k
          have hpostS : ((m.specScan prev_state prev_belief
              (buildStepIns actions pnoise observations qnoise
                nonterminals)).getD k outDefault).posterior.isSome = true :=
            hsome (by rw [hO]; rfl) _ hmemk
          simp only [hO] at hsel hbel hpostS houtlen ⊢
          rcases Option.isSome_iff_exists.mp hpostS with ⟨q, hq⟩
          simp only [hosk, hqnk, Option.pure_def, Option.bind_eq_bind,
            Option.some_bind, ← ho_k, hq, arraysOf, Option.some.injEq,
            Arrays.mk.injEq]
          refine ⟨?_, ?_, ?_, ?_, ?_, ?_, ?_⟩
          · exact fill_set_take _ _ _ _ k hkL houtlen
          · exact fill_set_take _ _ _ _ k hkL houtlen
          · exact fill_set_take _ _ _ _ k hkL houtlen
          · exact fill_set_take _ _ _ _ k hkL houtlen
          · rw [show q.2.2 = postState ((m.specScan prev_state prev_belief
                (buildStepIns actions pnoise (some os) qnoise
                  nonterminals)).getD k outDefault) from by
              simp only [postState, hq, Option.map_some', Option.getD_some]]
            exact fill_set_take _ _ _ _ k hkL houtlen
          · rw [show q.1 = postMean ((m.specScan prev_state prev_belief
                (buildStepIns actions pnoise (some os) qnoise
                  nonterminals)).getD k outDefault) from by
              simp only [postMean, hq, Option.map_some', Option.getD_some]]
            exact fill_set_take _ _ _ _ k hkL houtlen
          · rw [show q.2.1 = postStd ((m.specScan prev_state prev_belief
                (buildStepIns actions pnoise (some os) qnoise
                  nonterminals)).getD k outDefault) from by
              simp only [postStd, hq, Option.map_some', Option.getD_some]]
            exact fill_set_take _ _ _ _ k hkL houtlen

theorem fill_full (L : Nat) (init : Vec) (vals : List Vec) (h : vals.length = L) :
    fill L init vals = init :: vals := by
  simp [fill, h]

theorem arraysOf_full (L : Nat) (outs : List StepOut) (pb ps : Vec)
    (houts : outs.length = L) :
    arraysOf L outs pb ps L
      = { beliefs := pb :: outs.map (fun o => o.belief)
          prior_states := ps :: outs.map (fun o => o.prior_state)
          prior_means := [] :: outs.map (fun o => o.prior_mean)
          prior_std_devs := [] :: outs.map (fun o => o.prior_std_dev)
          posterior_states := ps :: outs.map postState
          posterior_means := [] :: outs.map postMean
          posterior_std_devs := [] :: outs.map postStd } := by
  have htake : outs.take L = outs := by rw [← houts]; exact List.take_length _
  simp only [arraysOf, htake]
  congr 1 <;> exact fill_full _ _ _ (by simp [houts])

theorem stack1_of_ne_nil (l : List Vec) (h : l ≠ []) : stack1 l = some l := by
  cases l with
  | nil => exact absurd rfl h
  | cons a t => rfl

/-- Refinement: for well-formed, non-empty inputs `TransitionModel.forward`
returns exactly the stacked outputs of the spec-side recursion. -/
theorem forward_spec (m : TransitionModel) (prev_state prev_belief : Vec)
    (actions : List Vec) (observations : Option (List Vec))
    (nonterminals : Option (List ℝ)) (pnoise qnoise : List Vec)
    (hpn : actions.length ≤ pnoise.length)
    (hos : ∀ os, observations = some os → actions.length ≤ os.length)
    (hqn : observations.isSome = true → actions.length ≤ qnoise.length)
    (hnt : ∀ ns, nonterminals = some ns → actions.length - 1 ≤ ns.length)
    (hL : actions ≠ []) :
    m.forward prev_state actions prev_belief observations nonterminals pnoise
        qnoise
      = some (specOutputs
          (m.specScan prev_state prev_belief
            (buildStepIns actions pnoise observations qnoise nonterminals))
          observations.isSome) := by
  have houtlen : (m.specScan prev_state prev_belief
      (buildStepIns actions pnoise observations qnoise nonterminals)).length
      = actions.length := by
    rw [specScan_length, buildStepIns_length]
  have hrun := runSteps_spec m prev_state prev_belief actions observations
    nonterminals pnoise qnoise hpn hos hqn hnt actions.length le_rfl
  rw [arraysOf_full _ _ _ _ houtlen] at hrun
  have houtne : m.specScan prev_state prev_belief
      (buildStepIns actions pnoise observations qnoise nonterminals) ≠ [] := by
    intro h
    rw [h] at houtlen
    exact hL (List.length_eq_zero.mp houtlen.symm)
  have hmapne : ∀ f : StepOut → Vec,
      (m.specScan prev_state prev_belief
        (buildStepIns actions pnoise observations qnoise nonterminals)).map f
        ≠ [] := fun f hf => houtne (List.map_eq_nil_iff.mp hf)
  simp only [TransitionModel.forward, hrun, Option.bind_eq_bind, Option.some_bind,
    List.drop_succ_cons, List.drop_zero, stack1_of_ne_nil _ (hmapne _)]
  cases hO : observations with
  | none => simp [specOutputs]
  | some os => simp [specOutputs]

/-! ### Analytic facts about `softplus`, `tanh` and `atanh` -/

theorem softplus_pos (x : ℝ) : 0 < softplus x := by
  rw [softplus]
  have : (1 : ℝ) < 1 + Real.exp x := by
    have := Real.exp_pos x
    linarith
  exact Real.log_pos this

theorem tanh_lt_one' (x : ℝ) : Real.tanh x < 1 := by
  have hc : 0 < Real.cosh x := Real.cosh_pos x
  have h1 : Real.sinh x < Real.cosh x := by
    have := Real.exp_pos (-x)
    have h2 := Real.cosh_sub_sinh x
    linarith
  rw [Real.tanh_eq_sinh_div_cosh]
  exact (div_lt_one hc).mpr h1
theorem neg_one_lt_tanh' (x : ℝ) : -1 < Real.tanh x := by
  have hc : 0 < Real.cosh x := Real.cosh_pos x
  have h2 := Real.cosh_add_sinh x
  have he := Real.exp_pos x
  rw [Real.tanh_eq_sinh_div_cosh, lt_div_iff hc]
  nlinarith

theorem tanh_pos_of_pos (x : ℝ) (h : 0 < x) : 0 < Real.tanh x := by
  rw [Real.tanh_eq_sinh_div_cosh]
  exact div_pos (Real.sinh_pos_iff.mpr h) (Real.cosh_pos x)

theorem tanh_eq_exp_sq (t : ℝ) :
    Real.tanh t = (Real.exp t ^ 2 - 1) / (Real.exp t ^ 2 + 1) := by
  have he : 0 < Real.exp t := Real.exp_pos t
  have hden : (0 : ℝ) < Real.exp t ^ 2 + 1 := by positivity
  rw [Real.tanh_eq_sinh_div_cosh, Real.sinh_eq, Real.cosh_eq, Real.exp_neg]
  rw [div_eq_div_iff (by positivity) (ne_of_gt hden)]
  field_simp
  ring

theorem exp_atanh_sq (y : ℝ) (h1 : -1 < y) (h2 : y < 1) :
    Real.exp (atanh y) ^ 2 = (1 + y) / (1 - y) := by
  have hd : (0 : ℝ) < 1 - y := by linarith
  have hn : (0 : ℝ) < 1 + y := by linarith
  have hu : 0 < (1 + y) / (1 - y) := div_pos hn hd
  rw [atanh, sq, ← Real.exp_add,
    show Real.log ((1 + y) / (1 - y)) / 2 + Real.log ((1 + y) / (1 - y)) / 2
      = Real.log ((1 + y) / (1 - y)) by ring]
  exact Real.exp_log hu

theorem tanh_atanh (y : ℝ) (h1 : -1 < y) (h2 : y < 1) :
    Real.tanh (atanh y) = y := by
  have hd : (0 : ℝ) < 1 - y := by linarith
  have hn : (0 : ℝ) < 1 + y := by linarith
  have hu : 0 < (1 + y) / (1 - y) := div_pos hn hd
  have hu1 : 0 < (1 + y) / (1 - y) + 1 := by linarith
  rw [tanh_eq_exp_sq, exp_atanh_sq y h1 h2]
  rw [div_eq_iff (ne_of_gt hu1)]
  field_simp
  ring

theorem softplus_log_exp_sub_one (c : ℝ) (h : 0 < c) :
    softplus (Real.log (Real.exp c - 1)) = c := by
  have h1 : (0 : ℝ) < Real.exp c - 1 :=
    sub_pos.mpr (Real.one_lt_exp_iff.mpr h)
  rw [softplus, Real.exp_log h1,
    show (1 : ℝ) + (Real.exp c - 1) = Real.exp c by ring, Real.log_exp]

/-- PyTorch's numerically stable `TanhTransform` Jacobian term agrees with the
spec's `log(1 - tanh(x)^2)`. -/
theorem tanhLogAbsDetJacobian_eq (x : ℝ) :
    tanhLogAbsDetJacobian x = Real.log (1 - Real.tanh x ^ 2) := by
  have hc : 0 < Real.cosh x := Real.cosh_pos x
  have h1 : 1 - Real.tanh x ^ 2 = (Real.cosh x ^ 2)⁻¹ := by
    rw [Real.tanh_eq_sinh_div_cosh, div_pow]
    have h0 := Real.cosh_sq_sub_sinh_sq x
    field_simp
  have h2 : Real.log (Real.cosh x)
      = x + softplus (-2 * x) - Real.log 2 := by
    have hep : 0 < 1 + Real.exp (-2 * x) := by positivity
    have hsum : Real.exp x + Real.exp (-x)
        = Real.exp x * (1 + Real.exp (-2 * x)) := by
      rw [mul_add, mul_one, ← Real.exp_add]
      ring_nf
    rw [Real.cosh_eq, hsum, Real.log_div (by positivity) (by norm_num),
      Real.log_mul (Real.exp_ne_zero x) (ne_of_gt hep), Real.log_exp, softplus]
  rw [h1, Real.log_inv, Real.log_pow, tanhLogAbsDetJacobian, h2]
  push_cast
  ring_nf

/-! ### Shape and invariant lemmas for the loop arrays -/

theorem stepCompute_posterior_none (m : TransitionModel) (s b a ε : Vec) :
    (m.stepCompute s b a ε none).posterior = none := rfl

theorem stepWrite_lengths (m : TransitionModel) (actions : List Vec)
    (observations : Option (List Vec)) (nonterminals : Option (List ℝ))
    (pnoise qnoise : List Vec) (t : Nat) (A A' : Arrays)
    (h : stepWrite m actions observations nonterminals pnoise qnoise t A
      = some A') :
    A'.beliefs.length = A.beliefs.length ∧
    A'.prior_states.length = A.prior_states.length ∧
    A'.prior_means.length = A.prior_means.length ∧
    A'.prior_std_devs.length = A.prior_std_devs.length ∧
    A'.posterior_states.length = A.posterior_states.length ∧
    A'.posterior_means.length = A.posterior_means.length ∧
    A'.posterior_std_devs.length = A.posterior_std_devs.length := by
  cases observations with
  | none =>
      simp only [stepWrite, Option.bind_eq_bind, Option.bind_eq_some,
        Option.pure_def, Option.some.injEq] at h
      rcases h with ⟨s, hs, b, hb, a, ha, ε, hε, y, hy, h⟩
      rcases hy with rfl
      split at h
      all_goals simp only [Option.some.injEq] at h
      all_goals rcases h.symm with rfl
      all_goals simp [List.length_set]
  | some os =>
      simp only [stepWrite, Option.bind_eq_bind, Option.bind_eq_some,
        Option.pure_def, Option.some.injEq] at h
      rcases h with ⟨s, hs, b, hb, a, ha, ε, hε, y, hy, εq, hεq, o2, ho2, h⟩
      rcases ho2 with rfl
      split at h
      all_goals simp only [Option.some.injEq] at h
      all_goals rcases h.symm with rfl
      all_goals simp [List.length_set]

theorem runSteps_lengths (m : TransitionModel) (prev_state : Vec)
    (actions : List Vec) (prev_belief : Vec) (observations : Option (List Vec))
    (nonterminals : Option (List ℝ)) (pnoise qnoise : List Vec) (k : Nat)
    (A : Arrays)
    (h : m.runSteps prev_state actions prev_belief observations nonterminals
      pnoise qnoise k = some A) :
    A.beliefs.length = actions.length + 1 ∧
    A.prior_states.length = actions.length + 1 ∧
    A.prior_means.length = actions.length + 1 ∧
    A.prior_std_devs.length = actions.length + 1 ∧
    A.posterior_states.length = actions.length + 1 ∧
    A.posterior_means.length = actions.length + 1 ∧
    A.posterior_std_devs.length = actions.length + 1 := by
  induction k generalizing A with
  | zero =>
      simp only [TransitionModel.runSteps, Option.some.injEq] at h
      rcases h.symm with rfl
      simp [initArrays]
  | succ k ih =>
      simp only [TransitionModel.runSteps, Option.bind_eq_some] at h
      rcases h with ⟨A0, hA0, hstep⟩
      have h1 := ih A0 hA0
      have h2 := stepWrite_lengths m actions observations nonterminals pnoise
        qnoise k A0 A hstep
      omega

theorem stepCompute_prior_std_floor (m : TransitionModel) (s b a ε : Vec)
    (obs : Option (Vec × Vec)) :
    ∀ x ∈ (m.stepCompute s b a ε obs).prior_std_dev, m.min_std_dev < x := by
  intro x hx
  simp only [TransitionModel.stepCompute, List.mem_map] at hx
  rcases hx with ⟨y, _, rfl⟩
  have := softplus_pos y
  linarith

theorem stepCompute_posterior_std_floor (m : TransitionModel) (s b a ε : Vec)
    (obs : Option (Vec × Vec)) (q : Vec × Vec × Vec)
    (hq : (m.stepCompute s b a ε obs).posterior = some q) :
    ∀ x ∈ q.2.1, m.min_std_dev < x := by
  intro x hx
  cases obs with
  | none => simp [TransitionModel.stepCompute] at hq
  | some oe =>
      simp only [TransitionModel.stepCompute, Option.map_some',
        Option.some.injEq] at hq
      rcases hq.symm with rfl
      simp only [List.mem_map] at hx
      rcases hx with ⟨y, _, rfl⟩
      have := softplus_pos y
      linarith

theorem stepWrite_stdInv (m : TransitionModel) (actions : List Vec)
    (observations : Option (List Vec)) (nonterminals : Option (List ℝ))
    (pnoise qnoise : List Vec) (t : Nat) (A A' : Arrays)
    (h : stepWrite m actions observations nonterminals pnoise qnoise t A
      = some A')
    (hA : stdInv m.min_std_dev A) : stdInv m.min_std_dev A' := by
  cases observations with
  | none =>
      simp only [stepWrite, Option.bind_eq_bind, Option.bind_eq_some,
        Option.pure_def, Option.some.injEq] at h
      rcases h with ⟨s, hs, b, hb, a, ha, ε, hε, y, hy, h⟩
      rcases hy with rfl
      split at h
      · simp only [Option.some.injEq] at h
        rcases h.symm with rfl
        refine ⟨fun v hv x hx => ?_, hA.2⟩
        rcases List.mem_or_eq_of_mem_set hv with hv' | rfl
        · exact hA.1 v hv' x hx
        · exact stepCompute_prior_std_floor m s b a ε none x hx
      · rename_i q hq
        rw [stepCompute_posterior_none] at hq
        exact absurd hq (by simp)
  | some os =>
      simp only [stepWrite, Option.bind_eq_bind, Option.bind_eq_some,
        Option.pure_def, Option.some.injEq] at h
      rcases h with ⟨s, hs, b, hb, a, ha, ε, hε, y, hy, εq, hεq, o2, ho2, h⟩
      rcases ho2 with rfl
      split at h
      · simp only [Option.some.injEq] at h
        rcases h.symm with rfl
        refine ⟨fun v hv x hx => ?_, hA.2⟩
        rcases List.mem_or_eq_of_mem_set hv with hv' | rfl
        · exact hA.1 v hv' x hx
        · exact stepCompute_prior_std_floor m s b a ε _ x hx
      · rename_i q hq
        simp only [Option.some.injEq] at h
        rcases h.symm with rfl
        constructor
        · intro v hv x hx
          rcases List.mem_or_eq_of_mem_set hv with hv' | rfl
          · exact hA.1 v hv' x hx
          · exact stepCompute_prior_std_floor m s b a ε _ x hx
        · intro v hv x hx
          rcases List.mem_or_eq_of_mem_set hv with hv' | rfl
          · exact hA.2 v hv' x hx
          · exact stepCompute_posterior_std_floor m s b a ε _ q hq x hx

theorem runSteps_stdInv (m : TransitionModel) (prev_state : Vec)
    (actions : List Vec) (prev_belief : Vec) (observations : Option (List Vec))
    (nonterminals : Option (List ℝ)) (pnoise qnoise : List Vec) (k : Nat)
    (A : Arrays)
    (h : m.runSteps prev_state actions prev_belief observations nonterminals
      pnoise qnoise k = some A) : stdInv m.min_std_dev A := by
  induction k generalizing A with
  | zero =>
      simp only [TransitionModel.runSteps, Option.some.injEq] at h
      rcases h.symm with rfl
      constructor
      · intro v hv x hx
        simp only [initArrays, List.mem_replicate] at hv
        rcases hv with ⟨_, rfl⟩
        simp at hx
      · intro v hv x hx
        simp only [initArrays, List.mem_replicate] at hv
        rcases hv with ⟨_, rfl⟩
        simp at hx
  | succ k ih =>
      simp only [TransitionModel.runSteps, Option.bind_eq_some] at h
      rcases h with ⟨A0, hA0, hstep⟩
      exact stepWrite_stdInv m actions observations nonterminals pnoise qnoise
        k A0 A hstep (ih A0 hA0)

theorem stack1_eq_some (l x : List Vec) (h : stack1 l = some x) :
    x = l ∧ l ≠ [] := by
  cases l with
  | nil => simp [stack1] at h
  | cons a t => exact ⟨by simpa [stack1] using h.symm, by simp⟩

/-- Any successful `forward` call is the stacked tails of a successful loop
run. -/
theorem forward_elim (m : TransitionModel) (prev_state : Vec)
    (actions : List Vec) (prev_belief : Vec) (observations : Option (List Vec))
    (nonterminals : Option (List ℝ)) (pnoise qnoise : List Vec)
    (res : List (List Vec))
    (h : m.forward prev_state actions prev_belief observations nonterminals
      pnoise qnoise = some res) :
    ∃ A, m.runSteps prev_state actions prev_belief observations nonterminals
        pnoise qnoise actions.length = some A ∧
      res = [A.beliefs.drop 1, A.prior_states.drop 1, A.prior_means.drop 1,
             A.prior_std_devs.drop 1]
        ++ (if observations.isSome then
              [A.posterior_states.drop 1, A.posterior_means.drop 1,
               A.posterior_std_devs.drop 1]
            else []) := by
  cases observations with
  | none =>
      simp only [TransitionModel.forward, Option.bind_eq_bind,
        Option.bind_eq_some, Option.pure_def, Option.some.injEq] at h
      rcases h with ⟨A, hA, b, hb, s, hs, pm, hpm, pd, hpd, hres⟩
      obtain ⟨rfl, _⟩ := stack1_eq_some _ _ hb
      obtain ⟨rfl, _⟩ := stack1_eq_some _ _ hs
      obtain ⟨rfl, _⟩ := stack1_eq_some _ _ hpm
      obtain ⟨rfl, _⟩ := stack1_eq_some _ _ hpd
      exact ⟨A, hA, by simp [hres.symm]⟩
  | some os =>
      simp only [TransitionModel.forward, Option.bind_eq_bind,
        Option.bind_eq_some, Option.pure_def, Option.some.injEq] at h
      rcases h with ⟨A, hA, b, hb, s, hs, pm, hpm, pd, hpd, qs, hqs, qm, hqm,
        qd, hqd, hres⟩
      obtain ⟨rfl, _⟩ := stack1_eq_some _ _ hb
      obtain ⟨rfl, _⟩ := stack1_eq_some _ _ hs
      obtain ⟨rfl, _⟩ := stack1_eq_some _ _ hpm
      obtain ⟨rfl, _⟩ := stack1_eq_some _ _ hpd
      obtain ⟨rfl, _⟩ := stack1_eq_some _ _ hqs
      obtain ⟨rfl, _⟩ := stack1_eq_some _ _ hqm
      obtain ⟨rfl, _⟩ := stack1_eq_some _ _ hqd
      exact ⟨A, hA, by simp [hres.symm]⟩

theorem stepCompute_belief (m : TransitionModel) (s b a ε : Vec)
    (obs : Option (Vec × Vec)) :
    (m.stepCompute s b a ε obs).belief
      = m.rnn.apply ((m.fc_embed_state_action.apply (s ++ a)).map m.act_fn) b :=
  rfl

theorem stepCompute_prior_mean (m : TransitionModel) (s b a ε : Vec)
    (obs : Option (Vec × Vec)) :
    (m.stepCompute s b a ε obs).prior_mean
      = (chunkHalf (m.fc_state_prior.apply
          ((m.fc_embed_belief_prior.apply
            (m.stepCompute s b a ε obs).belief).map m.act_fn))).1 :=
  rfl

theorem stepCompute_prior_std (m : TransitionModel) (s b a ε : Vec)
    (obs : Option (Vec × Vec)) :
    (m.stepCompute s b a ε obs).prior_std_dev
      = ((chunkHalf (m.fc_state_prior.apply
          ((m.fc_embed_belief_prior.apply
            (m.stepCompute s b a ε obs).belief).map m.act_fn))).2).map
          (fun x => softplus x + m.min_std_dev) :=
  rfl

theorem stepCompute_prior_state (m : TransitionModel) (s b a ε : Vec)
    (obs : Option (Vec × Vec)) :
    (m.stepCompute s b a ε obs).prior_state
      = vadd (m.stepCompute s b a ε obs).prior_mean
          (vmul (m.stepCompute s b a ε obs).prior_std_dev ε) :=
  rfl

theorem stepCompute_posterior_some (m : TransitionModel) (s b a ε e η : Vec) :
    (m.stepCompute s b a ε (some (e, η))).posterior
      = some
          ((chunkHalf (m.fc_state_posterior.apply
             ((m.fc_embed_belief_posterior.apply
               ((m.stepCompute s b a ε (some (e, η))).belief ++ e)).map
               m.act_fn))).1,
           ((chunkHalf (m.fc_state_posterior.apply
             ((m.fc_embed_belief_posterior.apply
               ((m.stepCompute s b a ε (some (e, η))).belief ++ e)).map
               m.act_fn))).2).map (fun x => softplus x + m.min_std_dev),
           vadd
             ((chunkHalf (m.fc_state_posterior.apply
               ((m.fc_embed_belief_posterior.apply
                 ((m.stepCompute s b a ε (some (e, η))).belief ++ e)).map
                 m.act_fn))).1)
             (vmul
               (((chunkHalf (m.fc_state_posterior.apply
                 ((m.fc_embed_belief_posterior.apply
                   ((m.stepCompute s b a ε (some (e, η))).belief ++ e)).map
                   m.act_fn))).2).map (fun x => softplus x + m.min_std_dev))
               η)) :=
  rfl

theorem map_getD_out (l : List StepOut) (f : StepOut → Vec) (t : Nat)
    (h : t < l.length) :
    (l.map f).getD t [] = f (l.getD t outDefault) := by
  rw [List.getD_eq_getElem?_getD, List.getElem?_map,
    List.getElem?_eq_getElem h, List.getD_eq_getElem l outDefault h]
  rfl

/-! ### Helper lemmas for the actor and the Monte-Carlo approximator -/

theorem mem_zipWith {α β γ : Type} (f : α → β → γ) (a : List α) (b : List β)
    (x : γ) (h : x ∈ List.zipWith f a b) : ∃ u ∈ a, ∃ v ∈ b, x = f u v := by
  induction a generalizing b with
  | nil => simp at h
  | cons p ps ih =>
      cases b with
      | nil => simp at h
      | cons q qs =>
          rw [List.zipWith_cons_cons] at h
          rcases List.mem_cons.mp h with rfl | h
          · exact ⟨p, by simp, q, by simp, rfl⟩
          · rcases ih qs h with ⟨u, hu, v, hv, rfl⟩
            exact ⟨u, by simp [hu], v, by simp [hv], rfl⟩

theorem sumMats_bound (l : List (List Vec))
    (hb : ∀ mat ∈ l, ∀ row ∈ mat, ∀ x ∈ row, -1 < x ∧ x < 1) :
    ∀ row ∈ sumMats l, ∀ x ∈ row, -(l.length : ℝ) < x ∧ x < l.length := by
  induction l with
  | nil => intro row hrow; simp [sumMats] at hrow
  | cons mat rest ih =>
      cases rest with
      | nil =>
          intro row hrow x hx
          simp only [sumMats] at hrow
          have hbx := hb mat (by simp) row hrow x hx
          simp only [List.length_singleton, Nat.cast_one]
          exact hbx
      | cons mat2 rest2 =>
          intro row hrow x hx
          simp only [sumMats] at hrow
          rcases mem_zipWith _ _ _ _ hrow with ⟨r1, hr1, r2, hr2, rfl⟩
          rcases mem_zipWith _ _ _ _ hx with ⟨u, hu, v, hv, rfl⟩
          have hu1 := hb mat (by simp) r1 hr1 u hu
          have hv1 := ih (fun m hm => hb m (by simp [hm])) r2 hr2 v hv
          have h1 := hu1.1
          have h2 := hu1.2
          have h3 := hv1.1
          have h4 := hv1.2
          simp only [List.length_cons] at h3 h4 ⊢
          push_cast at h3 h4 ⊢
          constructor
          · linarith
          · linarith

theorem tanhNormal_rsample_bounded (μ σ ε : Vec) :
    ∀ x ∈ (Independent1 (TanhTransformedE (NormalE μ σ))).rsample ε,
      -1 < x ∧ x < 1 := by
  intro x hx
  simp only [Independent1, TanhTransformedE, List.mem_map] at hx
  rcases hx with ⟨y, _, rfl⟩
  exact ⟨neg_one_lt_tanh' y, tanh_lt_one' y⟩

theorem actor_family_rsample_bounded (p1 p2 : List Vec) (j : JointDist)
    (hj : j ∈ List.zipWith
      (fun μ σ => Independent1 (TanhTransformedE (NormalE μ σ))) p1 p2)
    (ε : Vec) : ∀ x ∈ j.rsample ε, -1 < x ∧ x < 1 := by
  rcases mem_zipWith _ _ _ _ hj with ⟨μ, _, σ, _, rfl⟩
  exact tanhNormal_rsample_bounded μ σ ε

theorem sampleTensor_bounded (sd : SampleDist) (noise : Nat → Nat → Vec)
    (hfam : ∀ j ∈ sd.dist.family, ∀ ε, ∀ x ∈ j.rsample ε, -1 < x ∧ x < 1) :
    ∀ mat ∈ sd.sampleTensor noise, ∀ row ∈ mat, ∀ x ∈ row, -1 < x ∧ x < 1 := by
  intro mat hmat row hrow x hx
  simp only [SampleDist.sampleTensor, List.mem_map] at hmat
  rcases hmat with ⟨s, _, rfl⟩
  simp only [List.mem_map, List.mem_range] at hrow
  rcases hrow with ⟨b, hb, rfl⟩
  have hmem : sd.dist.family.getD b jdDefault ∈ sd.dist.family := by
    rw [List.getD_eq_getElem _ _ hb]
    exact List.getElem_mem hb
  exact hfam _ hmem _ x hx

/-- Every action component the actor returns lies strictly inside `(-1, 1)`:
the sample path applies `tanh` elementwise, and the deterministic path averages
such values. -/
theorem actor_action_bounded (m : ActorModel) (belief state : List Vec)
    (deterministic with_logprob : Bool) (meanNoise : Nat → Nat → Vec)
    (sampleNoise : List Vec) :
    ∀ row ∈ (m.forward belief state deterministic with_logprob meanNoise
      sampleNoise).1, ∀ x ∈ row, -1 < x ∧ x < 1 := by
  intro row hrow x hx
  cases deterministic with
  | false =>
      simp only [ActorModel.forward, Bool.false_eq_true, if_false,
        SampleDist.rsample, BatchJointDist.rsample, SampleDist.ofDist] at hrow
      rcases mem_zipWith _ _ _ _ hrow with ⟨j, hj, e, _, rfl⟩
      exact actor_family_rsample_bounded _ _ j hj e x hx
  | true =>
      simp only [ActorModel.forward, if_true, SampleDist.mean, meanDim0,
        List.mem_map] at hrow
      rcases hrow with ⟨r, hr, rfl⟩
      simp only [List.mem_map] at hx
      rcases hx with ⟨y, hy, rfl⟩
      have hboundall := sampleTensor_bounded
        (SampleDist.ofDist
          ⟨List.zipWith (fun μ σ => Independent1 (TanhTransformedE (NormalE μ σ)))
            (m.distParams belief state).1 (m.distParams belief state).2⟩)
        meanNoise
        (fun j hj ε => actor_family_rsample_bounded _ _ j hj ε)
      have hyb := sumMats_bound _ hboundall r hr y hy
      have hne : (SampleDist.ofDist
          ⟨List.zipWith (fun μ σ => Independent1 (TanhTransformedE (NormalE μ σ)))
            (m.distParams belief state).1
            (m.distParams belief state).2⟩).sampleTensor meanNoise ≠ [] := by
        intro hnil
        rw [hnil] at hr
        simp [sumMats] at hr
      have hlen : (0 : ℝ) < ((SampleDist.ofDist
          ⟨List.zipWith (fun μ σ => Independent1 (TanhTransformedE (NormalE μ σ)))
            (m.distParams belief state).1
            (m.distParams belief state).2⟩).sampleTensor meanNoise).length := by
        have := List.length_pos.mpr hne
        exact_mod_cast this
      constructor
      · rw [lt_div_iff hlen]
        nlinarith [hyb.1]
      · rw [div_lt_one hlen]
        exact hyb.2

theorem getD_zipWith {α β γ : Type} (f : α → β → γ) (a : List α) (b : List β)
    (i : Nat) (d1 : α) (d2 : β) (d3 : γ) (ha : i < a.length)
    (hb : i < b.length) :
    (List.zipWith f a b).getD i d3 = f (a.getD i d1) (b.getD i d2) := by
  have hz : i < (List.zipWith f a b).length := by
    simp only [List.length_zipWith]
    omega
  rw [List.getD_eq_getElem _ _ hz, List.getD_eq_getElem _ _ ha,
    List.getD_eq_getElem _ _ hb]
  exact List.getElem_zipWith

theorem sumVecs_length (l : List Vec) (B : Nat) (hlen : ∀ v ∈ l, v.length = B)
    (hl : l ≠ []) : (sumVecs l).length = B := by
  induction l with
  | nil => simp at hl
  | cons v rest ih =>
      cases rest with
      | nil => simpa [sumVecs] using hlen v (by simp)
      | cons v2 rest2 =>
          simp only [sumVecs, vadd, List.length_zipWith]
          rw [hlen v (by simp), ih (fun w hw => hlen w (by simp [hw])) (by simp)]
          omega

theorem sumVecs_getD (l : List Vec) (B : Nat) (hlen : ∀ v ∈ l, v.length = B)
    (b : Nat) (hb : b < B) (hl : l ≠ []) :
    (sumVecs l).getD b 0 = (l.map (fun v => v.getD b 0)).sum := by
  induction l with
  | nil => simp at hl
  | cons v rest ih =>
      cases rest with
      | nil => simp [sumVecs]
      | cons v2 rest2 =>
          have hrest : ∀ w ∈ v2 :: rest2, w.length = B :=
            fun w hw => hlen w (by simp [hw])
          have hslen : (sumVecs (v2 :: rest2)).length = B :=
            sumVecs_length _ B hrest (by simp)
          simp only [sumVecs] at *
          rw [show vadd v (sumVecs (v2 :: rest2))
              = List.zipWith (fun x y => x + y) v (sumVecs (v2 :: rest2)) from rfl]
          rw [getD_zipWith _ _ _ b 0 0 0 (by rw [hlen v (by simp)]; exact hb)
            (by rw [hslen]; exact hb)]
          rw [ih hrest (by simp)]
          simp

theorem sumMats_shape (l : List (List Vec)) (B F : Nat)
    (hshape : ∀ mat ∈ l, mat.length = B ∧ ∀ row ∈ mat, row.length = F)
    (hl : l ≠ []) :
    (sumMats l).length = B ∧ ∀ row ∈ sumMats l, row.length = F := by
  induction l with
  | nil => simp at hl
  | cons mat rest ih =>
      cases rest with
      | nil => simpa [sumMats] using hshape mat (by simp)
      | cons mat2 rest2 =>
          have hrest := ih (fun m hm => hshape m (by simp [hm])) (by simp)
          have hmat := hshape mat (by simp)
          constructor
          · simp only [sumMats, List.length_zipWith]
            rw [hmat.1, hrest.1]
            omega
          · intro row hrow
            simp only [sumMats] at hrow
            rcases mem_zipWith _ _ _ _ hrow with ⟨r1, hr1, r2, hr2, rfl⟩
            simp only [vadd, List.length_zipWith]
            rw [hmat.2 r1 hr1, hrest.2 r2 hr2]
            omega

theorem sumMats_getD (l : List (List Vec)) (B F : Nat)
    (hshape : ∀ mat ∈ l, mat.length = B ∧ ∀ row ∈ mat, row.length = F)
    (b f : Nat) (hb : b < B) (hf : f < F) (hl : l ≠ []) :
    ((sumMats l).getD b []).getD f 0
      = (l.map (fun mat => (mat.getD b []).getD f 0)).sum := by
  induction l with
  | nil => simp at hl
  | cons mat rest ih =>
      cases rest with
      | nil => simp [sumMats]
      | cons mat2 rest2 =>
          have hrest : ∀ m ∈ mat2 :: rest2, m.length = B ∧ ∀ row ∈ m, row.length = F :=
            fun m hm => hshape m (by simp [hm])
          have hmat := hshape mat (by simp)
          have hsshape := sumMats_shape _ B F hrest (by simp)
          simp only [sumMats] at *
          rw [getD_zipWith vadd _ _ b [] [] [] (by rw [hmat.1]; exact hb)
            (by rw [hsshape.1]; exact hb)]
          have hrowlen : (mat.getD b []).length = F := by
            refine hmat.2 _ ?_
            rw [List.getD_eq_getElem _ _ (by rw [hmat.1]; exact hb)]
            exact List.getElem_mem _
          have hrowlen2 : ((sumMats (mat2 :: rest2)).getD b []).length = F := by
            refine hsshape.2 _ ?_
            rw [List.getD_eq_getElem _ _ (by rw [hsshape.1]; exact hb)]
            exact List.getElem_mem _
          rw [show vadd (mat.getD b []) ((sumMats (mat2 :: rest2)).getD b [])
              = List.zipWith (fun x y => x + y) (mat.getD b [])
                  ((sumMats (mat2 :: rest2)).getD b []) from rfl]
          rw [getD_zipWith _ _ _ f 0 0 0 (by rw [hrowlen]; exact hf)
            (by rw [hrowlen2]; exact hf)]
          rw [ih hrest (by simp)]
          simp

theorem argmaxIdx_lt (l : List ℝ) (hl : l ≠ []) : argmaxIdx l < l.length := by
  induction l with
  | nil => simp at hl
  | cons x rest ih =>
      cases rest with
      | nil => simp [argmaxIdx]
      | cons y rest2 =>
          simp only [argmaxIdx]
          split
          · have := ih (by simp)
            simp only [List.length_cons] at this ⊢
            omega
          · simp

theorem argmaxIdx_max (l : List ℝ) (i : Nat) (hi : i < l.length) :
    l.getD i 0 ≤ l.getD (argmaxIdx l) 0 := by
  induction l generalizing i with
  | nil => simp at hi
  | cons x rest ih =>
      cases rest with
      | nil =>
          have : i = 0 := by simpa using hi
          subst this
          simp [argmaxIdx]
      | cons y rest2 =>
          simp only [argmaxIdx]
          split
          · rename_i hlt
            cases i with
            | zero =>
                simp only [List.getD_cons_zero, List.getD_cons_succ]
                exact le_of_lt hlt
            | succ i2 =>
                simp only [List.getD_cons_succ]
                exact ih i2 (by simpa using hi)
          · rename_i hge
            push_neg at hge
            cases i with
            | zero => simp
            | succ i2 =>
                simp only [List.getD_cons_succ, List.getD_cons_zero]
                exact le_trans (ih i2 (by simpa using hi)) hge

theorem range_map_getD {α : Type} (l : List α) (d : α) (n : Nat)
    (h : l.length = n) :
    (List.range n).map (fun i => l.getD i d) = l := by
  induction n generalizing l with
  | zero =>
      cases l with
      | nil => rfl
      | cons a t => simp at h
  | succ n ih =>
      cases l with
      | nil => simp at h
      | cons a t =>
          rw [List.range_succ_eq_map]
          simp only [List.map_cons, List.getD_cons_zero, List.map_map]
          congr 1
          refine Eq.trans ?_ (ih t (by simpa using h))
          refine List.map_congr_left ?_
          intro i _
          simp [List.getD_cons_succ, Function.comp]

theorem getD_map_list {α β : Type} (g : α → β) (l : List α) (b : Nat) (d : α)
    (d2 : β) (h : b < l.length) : (l.map g).getD b d2 = g (l.getD b d) := by
  rw [List.getD_eq_getElem?_getD, List.getElem?_map, List.getElem?_eq_getElem h,
    List.getD_eq_getElem l d h]
  rfl

theorem getD_range_map {α : Type} (g : Nat → α) (n i : Nat) (d : α)
    (h : i < n) : ((List.range n).map g).getD i d = g i := by
  rw [List.getD_eq_getElem?_getD, List.getElem?_map, List.getElem?_range h]
  rfl

theorem list_range_map_sum (g : Nat → ℝ) (n : Nat) :
    ((List.range n).map g).sum = ∑ i ∈ Finset.range n, g i := by
  induction n with
  | zero => simp
  | succ k ih =>
      rw [List.range_succ, List.map_append, List.sum_append,
        Finset.sum_range_succ, ih]
      simp

theorem zip_logprob_lists (p : List (ℝ × ℝ)) (y : Vec)
    (hy : ∀ x ∈ y, -1 < x ∧ x < 1) :
    List.zipWith (fun a b => a - b)
        (List.zipWith (fun q xi => normalLogPdf q.1 q.2 xi) p (y.map atanh))
        ((y.map atanh).map tanhLogAbsDetJacobian)
      = List.zipWith
          (fun q yi => normalLogPdf q.1 q.2 (atanh yi) - Real.log (1 - yi ^ 2))
          p y := by
  induction p generalizing y with
  | nil => simp
  | cons q ps ih =>
      cases y with
      | nil => simp
      | cons yi ys =>
          have hyi := hy yi (by simp)
          simp only [List.map_cons, List.zipWith_cons_cons]
          congr 1
          · rw [tanhLogAbsDetJacobian_eq, tanh_atanh yi hyi.1 hyi.2]
          · exact ih ys (fun x hx => hy x (by simp [hx]))

/-- The delegated log-density of the actor's composed distribution is the
spec's exact tanh-Normal log-density, for actions inside `(-1, 1)`. -/
theorem tanhNormal_logProb_eq (μ σ y : Vec)
    (hy : ∀ x ∈ y, -1 < x ∧ x < 1) :
    (Independent1 (TanhTransformedE (NormalE μ σ))).logProb y
      = tanhNormalLogDensity μ σ y := by
  simp only [Independent1, TanhTransformedE, NormalE, tanhNormalLogDensity]
  rw [zip_logprob_lists (μ.zip σ) y hy]

theorem vadd_self_smul (r : Vec) (c : ℝ) :
    vadd r (r.map (fun x => c * x)) = r.map (fun x => (c + 1) * x) := by
  induction r with
  | nil => rfl
  | cons a t ih =>
      simp only [List.map_cons, vadd, List.zipWith_cons_cons] at *
      rw [ih]
      congr 1
      ring

theorem sumMats_replicate_single (n : Nat) (r : Vec) :
    sumMats (List.replicate (n + 1) [r])
      = [r.map (fun x => ((n : ℝ) + 1) * x)] := by
  induction n with
  | zero =>
      simp only [List.replicate_succ, List.replicate_zero, sumMats,
        Nat.cast_zero, zero_add, one_mul]
      rw [List.map_id']
  | succ k ih =>
      rw [List.replicate_succ]
      rw [show sumMats ([r] :: List.replicate (k + 1) [r])
          = List.zipWith vadd [r] (sumMats (List.replicate (k + 1) [r])) from by
        cases hrep : List.replicate (k + 1) [r] with
        | nil => simp at hrep
        | cons a t => rfl]
      rw [ih]
      simp only [List.zipWith_cons_cons, List.zipWith_nil_right]
      rw [vadd_self_smul]
      congr 1
      refine List.map_congr_left fun x _ => ?_
      push_cast
      ring

theorem meanDim0_replicate_single (n : Nat) (r : Vec) :
    meanDim0 (List.replicate (n + 1) [r]) = [r] := by
  rw [meanDim0, sumMats_replicate_single]
  simp only [List.length_replicate, List.map_cons, List.map_nil, List.map_map]
  congr 1
  refine Eq.trans (List.map_congr_left fun x _ => ?_) (List.map_id' r)
  simp only [Function.comp]
  push_cast
  have h1 : ((n : ℝ) + 1) ≠ 0 := by positivity
  field_simp

theorem AM0_distParams :
    AM0.distParams [[]] [[]] = ([[0]], [[Real.log 2]]) := by
  have h2 : Real.exp (Real.log 2) = 2 := Real.exp_log (by norm_num)
  simp [ActorModel.distParams, ActorModel.netOutput, applyB, Linear.apply, dot,
    chunkHalf, AM0, L0, L2, h2, softplus, Real.tanh_zero]
  norm_num [Real.log_one, Real.exp_zero]

theorem AM0_detAction (c : ℝ) :
    (AM0.forward [[]] [[]] true false (fun _ _ => [c]) []).1
      = [[Real.tanh (Real.log 2 * c)]] := by
  simp only [ActorModel.forward, AM0_distParams, if_true]
  rw [SampleDist.mean]
  have hst : (SampleDist.ofDist
      ⟨List.zipWith (fun μ σ => Independent1 (TanhTransformedE (NormalE μ σ)))
        [[0]] [[Real.log 2]]⟩).sampleTensor (fun _ _ => [c])
      = List.replicate 100 [[Real.tanh (Real.log 2 * c)]] := by
    rw [SampleDist.sampleTensor]
    simp only [SampleDist.ofDist, List.zipWith_cons_cons, List.zipWith_nil_right,
      List.length_cons, List.length_nil]
    rw [show List.range 1 = [0] from rfl]
    simp only [List.map_cons, List.map_nil, List.getD_cons_zero, Independent1,
      TanhTransformedE, NormalE, vadd, vmul, List.zipWith_cons_cons,
      List.zipWith_nil_right, zero_add]
    rw [List.map_const']
    simp
  rw [hst, show (100 : Nat) = 99 + 1 from rfl, meanDim0_replicate_single]

/-! ### Claim theorems -/

/-- Claim C3: for an action sequence of length `L ≥ 1`, a successful
`TransitionModel.forward` returns exactly 4 sequences without observations and
exactly 7 with them, each of length exactly `L` — the internal index `0`
(the supplied initial belief/state) is excluded from the returned stacks. -/
theorem transition_output_shape (m : TransitionModel) (prev_state : Vec)
    (actions : List Vec) (prev_belief : Vec) (observations : Option (List Vec))
    (nonterminals : Option (List ℝ)) (pnoise qnoise : List Vec)
    (res : List (List Vec))
    (h : m.forward prev_state actions prev_belief observations nonterminals
      pnoise qnoise = some res) :
    res.length = (if observations.isSome then 7 else 4) ∧
    ∀ seq ∈ res, seq.length = actions.length := by
  obtain ⟨A, hA, rfl⟩ := forward_elim m prev_state actions prev_belief
    observations nonterminals pnoise qnoise res h
  have hlen := runSteps_lengths m prev_state actions prev_belief observations
    nonterminals pnoise qnoise actions.length A hA
  constructor
  · cases observations <;> simp
  · intro seq hseq
    cases hO : observations with
    | none =>
        rw [hO] at hseq
        simp only [Option.isSome_none, Bool.false_eq_true, if_false,
          List.append_nil, List.mem_cons, List.not_mem_nil, or_false] at hseq
        rcases hseq with rfl | rfl | rfl | rfl
        all_goals simp only [List.length_drop]
        all_goals omega
    | some os =>
        rw [hO] at hseq
        simp only [Option.isSome_some, if_true, List.mem_append, List.mem_cons,
          List.not_mem_nil, or_false] at hseq
        rcases hseq with (rfl | rfl | rfl | rfl) | (rfl | rfl | rfl)
        all_goals simp only [List.length_drop]
        all_goals omega

/-- Claim C3 witness: a concrete one-step call with observations returns 7
sequences of length 1. -/
theorem transition_output_shape_witness :
    TM0.forward [] [[]] [] (some [[]]) (some []) [[]] [[]]
        = some [[[]], [[]], [[]], [[]], [[]], [[]], [[]]] ∧
    (([[[]], [[]], [[]], [[]], [[]], [[]], [[]]] : List (List Vec)).length
        = if (some [[]] : Option (List Vec)).isSome then 7 else 4) ∧
    ∀ seq ∈ ([[[]], [[]], [[]], [[]], [[]], [[]], [[]]] : List (List Vec)),
      seq.length = ([[]] : List Vec).length :=
  ⟨rfl, transition_output_shape TM0 [] [[]] [] (some [[]]) (some []) [[]] [[]]
    [[[]], [[]], [[]], [[]], [[]], [[]], [[]]] rfl⟩

/-- Claim C10: `TransitionModel.forward` requires a non-empty action sequence:
with zero actions the loop never runs and stacking the empty slices fails
(`none`), while for any non-empty, well-formed input the call returns
normally. -/
theorem transition_empty_actions (m : TransitionModel) (prev_state : Vec)
    (actions : List Vec) (prev_belief : Vec) (observations : Option (List Vec))
    (nonterminals : Option (List ℝ)) (pnoise qnoise : List Vec)
    (hpn : actions.length ≤ pnoise.length)
    (hos : ∀ os, observations = some os → actions.length ≤ os.length)
    (hqn : observations.isSome = true → actions.length ≤ qnoise.length)
    (hnt : ∀ ns, nonterminals = some ns → actions.length - 1 ≤ ns.length) :
    m.forward prev_state [] prev_belief observations nonterminals pnoise qnoise
        = none ∧
    (actions ≠ [] →
      ∃ res, m.forward prev_state actions prev_belief observations nonterminals
        pnoise qnoise = some res) := by
  constructor
  · rfl
  · intro hL
    exact ⟨_, forward_spec m prev_state prev_belief actions observations
      nonterminals pnoise qnoise hpn hos hqn hnt hL⟩

/-- Claim C10 witness: the concrete model fails on zero actions and succeeds
on one action. -/
theorem transition_empty_actions_witness :
    TM0.forward [] [] [] (some [[]]) (some []) [[]] [[]] = none ∧
    (([[]] : List Vec) ≠ [] →
      ∃ res, TM0.forward [] [[]] [] (some [[]]) (some []) [[]] [[]]
        = some res) :=
  transition_empty_actions TM0 [] [[]] [] (some [[]]) (some []) [[]] [[]]
    (by decide) (fun os hos => by simp_all) (fun _ => by decide)
    (fun ns hns => by simp_all)

/-- Claim C4: in the state-selection step of the loop, a nonterminal mask
entry of `0` at index `k` forces the state fed into the recurrence at loop
step `k+1` to be all-zero, whatever the stored state was; and the very first
step (`t = 0`) always reads the externally supplied initial state unmasked,
whatever the mask is. -/
theorem transition_nonterminal_masking (hasObs : Bool) (ns : List ℝ) (k : Nat)
    (A : Arrays)
    (hk : ns[k]? = some 0)
    (hlen : k + 1
      < (if hasObs then A.posterior_states else A.prior_states).length)
    (T : Nat) (prev_belief prev_state : Vec) (nonterminals : Option (List ℝ))
    (hT : 0 < T) :
    (∃ v, selectedState hasObs (some ns) (k + 1) A = some v ∧ ∀ x ∈ v, x = 0) ∧
    selectedState hasObs nonterminals 0 (initArrays T prev_belief prev_state)
      = some prev_state := by
  constructor
  · have hre := getElem?_eq_some_getD
      (if hasObs then A.posterior_states else A.prior_states) [] (k + 1) hlen
    refine ⟨((if hasObs then A.posterior_states else A.prior_states).getD
      (k + 1) []).map (fun x => x * 0), ?_, ?_⟩
    · simp only [selectedState, Option.bind_eq_bind, hre, Option.some_bind]
      rw [if_neg (Nat.succ_ne_zero k)]
      simp only [Nat.add_sub_cancel, hk, Option.some_bind]
      rfl
    · intro x hx
      simp only [List.mem_map] at hx
      rcases hx with ⟨y, _, rfl⟩
      exact mul_zero y
  · have h0 : (if hasObs then (initArrays T prev_belief prev_state).posterior_states
        else (initArrays T prev_belief prev_state).prior_states)[0]?
        = some prev_state := by
      cases T with
      | zero => omega
      | succ n => cases hasObs <;> simp [initArrays, List.replicate_succ]
    cases nonterminals with
    | none => simp [selectedState, h0]
    | some ns2 => simp [selectedState, h0]

/-- Claim C4 witness: with mask entry `0`, the state fed at step 1 is the
zero vector; step 0 reads the initial state unmasked. -/
theorem transition_nonterminal_masking_witness :
    (∃ v, selectedState false (some [0]) (0 + 1) A1 = some v ∧ ∀ x ∈ v, x = 0) ∧
    selectedState false (some [5]) 0 (initArrays 2 [] [3]) = some [3] :=
  transition_nonterminal_masking false [0] 0 A1 rfl (by decide) 2 [] [3]
    (some [5]) (by decide)

/-- Claim C2: every element of every std-dev tensor the system returns is
strictly greater than the configured floor (hence `≥` it): the prior and
posterior std-dev sequences of `TransitionModel.forward` exceed `min_std_dev`,
and the std of the actor's action distribution exceeds `min_std`, because the
floor is added to a positive `softplus` output. -/
theorem std_dev_floor (mt : TransitionModel) (prev_state : Vec)
    (actions : List Vec) (prev_belief : Vec) (observations : Option (List Vec))
    (nonterminals : Option (List ℝ)) (pnoise qnoise : List Vec)
    (res : List (List Vec)) (ma : ActorModel) (belief state : List Vec)
    (h : mt.forward prev_state actions prev_belief observations nonterminals
      pnoise qnoise = some res) :
    (∀ v ∈ res.getD 3 [], ∀ x ∈ v, mt.min_std_dev < x) ∧
    (∀ v ∈ res.getD 6 [], ∀ x ∈ v, mt.min_std_dev < x) ∧
    (∀ row ∈ (ma.distParams belief state).2, ∀ x ∈ row, ma.min_std < x) := by
  obtain ⟨A, hA, rfl⟩ := forward_elim mt prev_state actions prev_belief
    observations nonterminals pnoise qnoise res h
  have hinv := runSteps_stdInv mt prev_state actions prev_belief observations
    nonterminals pnoise qnoise actions.length A hA
  refine ⟨?_, ?_, ?_⟩
  · intro v hv x hx
    have hv2 : v ∈ A.prior_std_devs.drop 1 := by
      cases observations <;> simpa using hv
    exact hinv.1 v (List.mem_of_mem_drop hv2) x hx
  · intro v hv x hx
    cases hO : observations with
    | none =>
        rw [hO] at hv
        simp at hv
    | some os =>
        rw [hO] at hv
        simp only [Option.isSome_some, if_true] at hv
        have hv2 : v ∈ A.posterior_std_devs.drop 1 := by simpa using hv
        exact hinv.2 v (List.mem_of_mem_drop hv2) x hx
  · intro row hrow x hx
    simp only [ActorModel.distParams, List.mem_map] at hrow
    rcases hrow with ⟨r, _, rfl⟩
    simp only [List.mem_map] at hx
    rcases hx with ⟨v, _, rfl⟩
    have := softplus_pos (v + Real.log (Real.exp ma.init_std - 1))
    linarith

/-- Claim C2 witness: applied to a concrete one-step run with observations
and a concrete actor. -/
theorem std_dev_floor_witness :
    TM0.forward [] [[]] [] (some [[]]) (some []) [[]] [[]]
        = some [[[]], [[]], [[]], [[]], [[]], [[]], [[]]] ∧
    ((∀ v ∈ ([[[]], [[]], [[]], [[]], [[]], [[]], [[]]] :
        List (List Vec)).getD 3 [], ∀ x ∈ v, TM0.min_std_dev < x) ∧
     (∀ v ∈ ([[[]], [[]], [[]], [[]], [[]], [[]], [[]]] :
        List (List Vec)).getD 6 [], ∀ x ∈ v, TM0.min_std_dev < x) ∧
     (∀ row ∈ (AM0.distParams [[]] [[]]).2, ∀ x ∈ row, AM0.min_std < x)) :=
  ⟨rfl, std_dev_floor TM0 [] [[]] [] (some [[]]) (some []) [[]] [[]]
    [[[]], [[]], [[]], [[]], [[]], [[]], [[]]] AM0 [[]] [[]] rfl⟩

/-- Claim C1: every step `t` of a successful `TransitionModel.forward` run on
well-formed, non-empty inputs satisfies the spec's step equations — the belief
is the GRU cell applied to the activated linear embedding of the (masked)
previous selected state concatenated with the action, and the previous belief;
the prior mean and raw std are the two halves of the prior head applied to the
belief, the std adds `min_std_dev` to a `softplus`, and the prior state is the
reparameterized sample; with observations, the posterior is computed the same
way from the belief concatenated with the embedding, with its own weights. -/
theorem transition_step_equations (m : TransitionModel) (prev_state : Vec)
    (actions : List Vec) (prev_belief : Vec) (observations : Option (List Vec))
    (nonterminals : Option (List ℝ)) (pnoise qnoise : List Vec)
    (res : List (List Vec)) (t : Nat)
    (hpn : actions.length ≤ pnoise.length)
    (hos : ∀ os, observations = some os → actions.length ≤ os.length)
    (hqn : observations.isSome = true → actions.length ≤ qnoise.length)
    (hnt : ∀ ns, nonterminals = some ns → actions.length - 1 ≤ ns.length)
    (hL : actions ≠ [])
    (h : m.forward prev_state actions prev_belief observations nonterminals
      pnoise qnoise = some res)
    (ht : t < actions.length) :
    ((res.getD 0 []).getD t []
      = m.rnn.apply
          ((m.fc_embed_state_action.apply
              ((maskState
                  (if t = 0 then prev_state
                   else (res.getD (if observations.isSome then 4 else 1)
                     []).getD (t - 1) [])
                  (if t = 0 then none
                   else nonterminals.map fun ns => ns.getD (t - 1) 0))
                ++ actions.getD t [])).map m.act_fn)
          (if t = 0 then prev_belief else (res.getD 0 []).getD (t - 1) [])) ∧
    ((res.getD 2 []).getD t []
      = (chunkHalf (m.fc_state_prior.apply
          ((m.fc_embed_belief_prior.apply
            ((res.getD 0 []).getD t [])).map m.act_fn))).1) ∧
    ((res.getD 3 []).getD t []
      = ((chunkHalf (m.fc_state_prior.apply
          ((m.fc_embed_belief_prior.apply
            ((res.getD 0 []).getD t [])).map m.act_fn))).2).map
          (fun x => softplus x + m.min_std_dev)) ∧
    ((res.getD 1 []).getD t []
      = vadd ((res.getD 2 []).getD t [])
          (vmul ((res.getD 3 []).getD t []) (pnoise.getD t []))) ∧
    (∀ os, observations = some os →
      ((res.getD 5 []).getD t []
        = (chunkHalf (m.fc_state_posterior.apply
            ((m.fc_embed_belief_posterior.apply
              (((res.getD 0 []).getD t []) ++ os.getD t [])).map m.act_fn))).1) ∧
      ((res.getD 6 []).getD t []
        = ((chunkHalf (m.fc_state_posterior.apply
            ((m.fc_embed_belief_posterior.apply
              (((res.getD 0 []).getD t [])
                ++ os.getD t [])).map m.act_fn))).2).map
            (fun x => softplus x + m.min_std_dev)) ∧
      ((res.getD 4 []).getD t []
        = vadd ((res.getD 5 []).getD t [])
            (vmul ((res.getD 6 []).getD t []) (qnoise.getD t [])))) := by
  have hres : res = specOutputs
      (m.specScan prev_state prev_belief
        (buildStepIns actions pnoise observations qnoise nonterminals))
      observations.isSome :=
    Option.some_injective _
      (h.symm.trans (forward_spec m prev_state prev_belief actions observations
        nonterminals pnoise qnoise hpn hos hqn hnt hL))
  subst hres
  have houtlen : (m.specScan prev_state prev_belief
      (buildStepIns actions pnoise observations qnoise nonterminals)).length
      = actions.length := by rw [specScan_length, buildStepIns_length]
  have ht' : t < (m.specScan prev_state prev_belief
      (buildStepIns actions pnoise observations qnoise nonterminals)).length :=
    by omega
  have ho_t := specScan_step_closed m prev_state prev_belief actions
    observations nonterminals pnoise qnoise t ht
  cases hO : observations with
  | none =>
      subst hO
      simp only [Option.isSome_none, Bool.false_eq_true, if_false, specOutputs,
        List.append_nil, List.getD_cons_zero, List.getD_cons_succ]
      have hnone : ∀ o ∈ m.specScan prev_state prev_belief
          (buildStepIns actions pnoise none qnoise nonterminals),
          o.posterior = none :=
        specScan_posterior_isNone _ _ _ _ (buildStepIns_obs_none _ _ _ _)
      simp only [Option.map_none'] at ho_t
      refine ⟨?_, ?_, ?_, ?_, ?_⟩
      · have hsel_eq : (if t = 0 then prev_state
            else nextState ((m.specScan prev_state prev_belief
              (buildStepIns actions pnoise none qnoise nonterminals)).getD
                (t - 1) outDefault))
            = (if t = 0 then prev_state
              else (List.map (fun o => o.prior_state)
                (m.specScan prev_state prev_belief
                  (buildStepIns actions pnoise none qnoise
                    nonterminals))).getD (t - 1) []) := by
          cases t with
          | zero => rfl
          | succ j =>
              have hj : j < (m.specScan prev_state prev_belief
                  (buildStepIns actions pnoise none qnoise
                    nonterminals)).length := by omega
              rw [if_neg (Nat.succ_ne_zero j), if_neg (Nat.succ_ne_zero j)]
              simp only [Nat.add_sub_cancel]
              rw [map_getD_out _ _ j hj]
              have hpj : ((m.specScan prev_state prev_belief
                  (buildStepIns actions pnoise none qnoise
                    nonterminals)).getD j outDefault).posterior = none := by
                refine hnone _ ?_
                rw [List.getD_eq_getElem _ _ hj]
                exact List.getElem_mem hj
              simp only [nextState, hpj]
        have hbel_eq : (if t = 0 then prev_belief
            else ((m.specScan prev_state prev_belief
              (buildStepIns actions pnoise none qnoise nonterminals)).getD
                (t - 1) outDefault).belief)
            = (if t = 0 then prev_belief
              else (List.map (fun o => o.belief)
                (m.specScan prev_state prev_belief
                  (buildStepIns actions pnoise none qnoise
                    nonterminals))).getD (t - 1) []) := by
          cases t with
          | zero => rfl
          | succ j =>
              have hj : j < (m.specScan prev_state prev_belief
                  (buildStepIns actions pnoise none qnoise
                    nonterminals)).length := by omega
              rw [if_neg (Nat.succ_ne_zero j), if_neg (Nat.succ_ne_zero j)]
              simp only [Nat.add_sub_cancel]
              rw [map_getD_out _ _ j hj]
        rw [map_getD_out _ _ t ht', ho_t, stepCompute_belief, hsel_eq, hbel_eq]
      · rw [map_getD_out _ _ t ht', map_getD_out _ _ t ht', ho_t,
          stepCompute_prior_mean, ← ho_t]
      · rw [map_getD_out _ _ t ht', map_getD_out _ _ t ht', ho_t,
          stepCompute_prior_std, ← ho_t]
      · rw [map_getD_out _ _ t ht', map_getD_out _ _ t ht',
          map_getD_out _ _ t ht', ho_t, stepCompute_prior_state, ← ho_t]
      · intro os hos2
        exact absurd hos2 (by simp)
  | some os =>
      subst hO
      have hsome : ∀ o ∈ m.specScan prev_state prev_belief
          (buildStepIns actions pnoise (some os) qnoise nonterminals),
          o.posterior.isSome = true :=
        specScan_posterior_isSome _ _ _ _
          (buildStepIns_obs_isSome _ _ _ _ _ (by simp))
      simp only [Option.isSome_some, if_true, specOutputs, List.cons_append,
        List.nil_append, List.getD_cons_zero, List.getD_cons_succ]
      simp only [Option.map_some'] at ho_t
      refine ⟨?_, ?_, ?_, ?_, ?_⟩
      · have hsel_eq : (if t = 0 then prev_state
            else nextState ((m.specScan prev_state prev_belief
              (buildStepIns actions pnoise (some os) qnoise nonterminals)).getD
                (t - 1) outDefault))
            = (if t = 0 then prev_state
              else (List.map postState
                (m.specScan prev_state prev_belief
                  (buildStepIns actions pnoise (some os) qnoise
                    nonterminals))).getD (t - 1) []) := by
          cases t with
          | zero => rfl
          | succ j =>
              have hj : j < (m.specScan prev_state prev_belief
                  (buildStepIns actions pnoise (some os) qnoise
                    nonterminals)).length := by omega
              rw [if_neg (Nat.succ_ne_zero j), if_neg (Nat.succ_ne_zero j)]
              simp only [Nat.add_sub_cancel]
              rw [map_getD_out _ _ j hj]
              have hpj : ((m.specScan prev_state prev_belief
                  (buildStepIns actions pnoise (some os) qnoise
                    nonterminals)).getD j outDefault).posterior.isSome
                  = true := by
                refine hsome _ ?_
                rw [List.getD_eq_getElem _ _ hj]
                exact List.getElem_mem hj
              rcases Option.isSome_iff_exists.mp hpj with ⟨q, hq⟩
              simp only [nextState, postState, hq, Option.map_some',
                Option.getD_some]
        have hbel_eq : (if t = 0 then prev_belief
            else ((m.specScan prev_state prev_belief
              (buildStepIns actions pnoise (some os) qnoise nonterminals)).getD
                (t - 1) outDefault).belief)
            = (if t = 0 then prev_belief
              else (List.map (fun o => o.belief)
                (m.specScan prev_state prev_belief
                  (buildStepIns actions pnoise (some os) qnoise
                    nonterminals))).getD (t - 1) []) := by
          cases t with
          | zero => rfl
          | succ j =>
              have hj : j < (m.specScan prev_state prev_belief
                  (buildStepIns actions pnoise (some os) qnoise
                    nonterminals)).length := by omega
              rw [if_neg (Nat.succ_ne_zero j), if_neg (Nat.succ_ne_zero j)]
              simp only [Nat.add_sub_cancel]
              rw [map_getD_out _ _ j hj]
        rw [map_getD_out _ _ t ht', ho_t, stepCompute_belief, hsel_eq, hbel_eq]
      · rw [map_getD_out _ _ t ht', map_getD_out _ _ t ht', ho_t,
          stepCompute_prior_mean, ← ho_t]
      · rw [map_getD_out _ _ t ht', map_getD_out _ _ t ht', ho_t,
          stepCompute_prior_std, ← ho_t]
      · rw [map_getD_out _ _ t ht', map_getD_out _ _ t ht',
          map_getD_out _ _ t ht', ho_t, stepCompute_prior_state, ← ho_t]
      · intro os2 hos2
        rcases Option.some_injective _ hos2.symm with rfl
        refine ⟨?_, ?_, ?_⟩
        · rw [map_getD_out _ _ t ht', map_getD_out _ _ t ht', ho_t]
          simp only [postMean]
          rw [stepCompute_posterior_some]
          simp only [Option.map_some', Option.getD_some]
        · rw [map_getD_out _ _ t ht', map_getD_out _ _ t ht', ho_t]
          simp only [postStd]
          rw [stepCompute_posterior_some]
          simp only [Option.map_some', Option.getD_some]
        · rw [map_getD_out _ _ t ht', map_getD_out _ _ t ht',
            map_getD_out _ _ t ht', ho_t]
          simp only [postState, postMean, postStd]
          rw [stepCompute_posterior_some]
          simp only [Option.map_some', Option.getD_some]

/-- Claim C1 witness: the step equations instantiated on a concrete one-step
run with observations, at step `t = 0`. -/
theorem transition_step_equations_witness :
    TM0.forward [] [[]] [] (some [[]]) (some []) [[]] [[]]
        = some [[[]], [[]], [[]], [[]], [[]], [[]], [[]]] ∧
    (((([[[]], [[]], [[]], [[]], [[]], [[]], [[]]] :
          List (List Vec)).getD 0 []).getD 0 []
      = TM0.rnn.apply
          ((TM0.fc_embed_state_action.apply
              ((maskState
                  (if 0 = 0 then ([] : Vec)
                   else (([[[]], [[]], [[]], [[]], [[]], [[]], [[]]] :
                     List (List Vec)).getD
                       (if (some [[]] : Option (List Vec)).isSome then 4
                        else 1) []).getD (0 - 1) [])
                  (if 0 = 0 then none
                   else (some ([] : List ℝ)).map fun ns => ns.getD (0 - 1) 0))
                ++ ([[]] : List Vec).getD 0 [])).map TM0.act_fn)
          (if 0 = 0 then ([] : Vec)
           else (([[[]], [[]], [[]], [[]], [[]], [[]], [[]]] :
             List (List Vec)).getD 0 []).getD (0 - 1) [])) ∧
    ((([[[]], [[]], [[]], [[]], [[]], [[]], [[]]] :
          List (List Vec)).getD 2 []).getD 0 []
      = (chunkHalf (TM0.fc_state_prior.apply
          ((TM0.fc_embed_belief_prior.apply
            ((([[[]], [[]], [[]], [[]], [[]], [[]], [[]]] :
              List (List Vec)).getD 0 []).getD 0 [])).map TM0.act_fn))).1) ∧
    ((([[[]], [[]], [[]], [[]], [[]], [[]], [[]]] :
          List (List Vec)).getD 3 []).getD 0 []
      = ((chunkHalf (TM0.fc_state_prior.apply
          ((TM0.fc_embed_belief_prior.apply
            ((([[[]], [[]], [[]], [[]], [[]], [[]], [[]]] :
              List (List Vec)).getD 0 []).getD 0 [])).map TM0.act_fn))).2).map
          (fun x => softplus x + TM0.min_std_dev)) ∧
    ((([[[]], [[]], [[]], [[]], [[]], [[]], [[]]] :
          List (List Vec)).getD 1 []).getD 0 []
      = vadd ((([[[]], [[]], [[]], [[]], [[]], [[]], [[]]] :
            List (List Vec)).getD 2 []).getD 0 [])
          (vmul ((([[[]], [[]], [[]], [[]], [[]], [[]], [[]]] :
              List (List Vec)).getD 3 []).getD 0 [])
            (([[]] : List Vec).getD 0 []))) ∧
    (∀ os, (some [[]] : Option (List Vec)) = some os →
      ((([[[]], [[]], [[]], [[]], [[]], [[]], [[]]] :
            List (List Vec)).getD 5 []).getD 0 []
        = (chunkHalf (TM0.fc_state_posterior.apply
            ((TM0.fc_embed_belief_posterior.apply
              (((([[[]], [[]], [[]], [[]], [[]], [[]], [[]]] :
                List (List Vec)).getD 0 []).getD 0 [])
                ++ os.getD 0 [])).map TM0.act_fn))).1) ∧
      ((([[[]], [[]], [[]], [[]], [[]], [[]], [[]]] :
            List (List Vec)).getD 6 []).getD 0 []
        = ((chunkHalf (TM0.fc_state_posterior.apply
            ((TM0.fc_embed_belief_posterior.apply
              (((([[[]], [[]], [[]], [[]], [[]], [[]], [[]]] :
                List (List Vec)).getD 0 []).getD 0 [])
                ++ os.getD 0 [])).map TM0.act_fn))).2).map
            (fun x => softplus x + TM0.min_std_dev)) ∧
      ((([[[]], [[]], [[]], [[]], [[]], [[]], [[]]] :
            List (List Vec)).getD 4 []).getD 0 []
        = vadd ((([[[]], [[]], [[]], [[]], [[]], [[]], [[]]] :
              List (List Vec)).getD 5 []).getD 0 [])
            (vmul ((([[[]], [[]], [[]], [[]], [[]], [[]], [[]]] :
                List (List Vec)).getD 6 []).getD 0 [])
              (([[]] : List Vec).getD 0 []))))) :=
  ⟨rfl, transition_step_equations TM0 [] [[]] [] (some [[]]) (some []) [[]]
    [[]] [[[]], [[]], [[]], [[]], [[]], [[]], [[]]] 0 (by decide)
    (fun os hos => by simp_all) (fun _ => by decide)
    (fun ns hns => by simp_all) (by decide) rfl (by decide)⟩

/-- Claim C6: every action vector returned by `ActorModel.forward` — by the
deterministic Monte-Carlo-mean path or the reparameterized sample path — lies
strictly within `(-1, 1)` component-wise; the tanh transform's output range is
`(-1, 1)` independent of `mean_scale`, which only bounds the pre-transform
mean. -/
theorem actor_action_range (m : ActorModel) (belief state : List Vec)
    (deterministic with_logprob : Bool) (meanNoise : Nat → Nat → Vec)
    (sampleNoise : List Vec) :
    ∀ row ∈ (m.forward belief state deterministic with_logprob meanNoise
      sampleNoise).1, ∀ x ∈ row, -1 < x ∧ x < 1 :=
  actor_action_bounded m belief state deterministic with_logprob meanNoise
    sampleNoise

/-- Witness for C6: the deterministic action of the concrete actor `AM0`
lies strictly inside `(-1, 1)`. -/
theorem actor_action_range_witness :
    -1 < Real.tanh (Real.log 2 * 0) ∧ Real.tanh (Real.log 2 * 0) < 1 :=
  actor_action_range AM0 [[]] [[]] true false (fun _ _ => [0]) []
    [Real.tanh (Real.log 2 * 0)]
    (by rw [AM0_detAction 0]; exact List.mem_singleton.mpr rfl)
    (Real.tanh (Real.log 2 * 0)) (List.mem_singleton.mpr rfl)

/-- Claim C7: the actor splits its raw network output into mean and raw std,
squashes the mean as `mean_scale · tanh(mean / mean_scale)` — bounding it into
`(-mean_scale, mean_scale)` — and maps the std through
`softplus(raw + raw_init_std) + min_std` with
`raw_init_std = log(exp(init_std) - 1)`, so that a zero raw input yields a std
of exactly `init_std + min_std`. -/
theorem actor_squash_and_init_std (m : ActorModel) (belief state : List Vec)
    (hms : 0 < m.mean_scale) (his : 0 < m.init_std) :
    ((m.distParams belief state).1
        = (m.netOutput belief state).map (fun row =>
            (chunkHalf row).1.map
              (fun v => m.mean_scale * Real.tanh (v / m.mean_scale)))) ∧
    ((m.distParams belief state).2
        = (m.netOutput belief state).map (fun row =>
            (chunkHalf row).2.map
              (fun v => softplus (v + Real.log (Real.exp m.init_std - 1))
                + m.min_std))) ∧
    (∀ row ∈ (m.distParams belief state).1, ∀ x ∈ row,
      -m.mean_scale < x ∧ x < m.mean_scale) ∧
    (softplus (0 + Real.log (Real.exp m.init_std - 1)) + m.min_std
      = m.init_std + m.min_std) := by
  refine ⟨rfl, rfl, ?_, ?_⟩
  · intro row hrow x hx
    simp only [ActorModel.distParams, List.mem_map] at hrow
    rcases hrow with ⟨r, _, rfl⟩
    simp only [List.mem_map] at hx
    rcases hx with ⟨v, _, rfl⟩
    have h1 := tanh_lt_one' (v / m.mean_scale)
    have h2 := neg_one_lt_tanh' (v / m.mean_scale)
    constructor
    · nlinarith
    · nlinarith
  · rw [zero_add, softplus_log_exp_sub_one _ his]

/-- Claim C7 witness: the concrete actor `AM0` (with `mean_scale = 1` and
`init_std = log 2`). -/
theorem actor_squash_and_init_std_witness :
    (0 < AM0.mean_scale ∧ 0 < AM0.init_std) ∧
    (((AM0.distParams [[]] [[]]).1
        = (AM0.netOutput [[]] [[]]).map (fun row =>
            (chunkHalf row).1.map
              (fun v => AM0.mean_scale * Real.tanh (v / AM0.mean_scale)))) ∧
     ((AM0.distParams [[]] [[]]).2
        = (AM0.netOutput [[]] [[]]).map (fun row =>
            (chunkHalf row).2.map
              (fun v => softplus (v + Real.log (Real.exp AM0.init_std - 1))
                + AM0.min_std))) ∧
     (∀ row ∈ (AM0.distParams [[]] [[]]).1, ∀ x ∈ row,
       -AM0.mean_scale < x ∧ x < AM0.mean_scale) ∧
     (softplus (0 + Real.log (Real.exp AM0.init_std - 1)) + AM0.min_std
       = AM0.init_std + AM0.min_std)) :=
  ⟨⟨by norm_num [AM0], Real.log_pos (by norm_num)⟩,
   actor_squash_and_init_std AM0 [[]] [[]] (by norm_num [AM0])
     (Real.log_pos (by norm_num))⟩

/-- Claim C5 counterexample: two `deterministic=True` calls with identical
parameters and identical inputs but different internal Monte-Carlo draws
return different actions — the deterministic mean path does involve sampling
randomness (`SampleDist.mean` averages fresh reparameterized draws). -/
theorem actor_deterministic_counterexample :
    (AM0.forward [[]] [[]] true false (fun _ _ => [0]) []).1
      ≠ (AM0.forward [[]] [[]] true false (fun _ _ => [1]) []).1 := by
  rw [AM0_detAction 0, AM0_detAction 1]
  intro hcontra
  have hpos : 0 < Real.tanh (Real.log 2) :=
    tanh_pos_of_pos _ (Real.log_pos (by norm_num))
  simp only [mul_zero, mul_one, Real.tanh_zero, List.cons.injEq,
    and_true] at hcontra
  linarith [hcontra.symm ▸ hpos]

/-- Claim C5 (amended): the deterministic path is a pure function of the
parameters, the inputs and the Monte-Carlo noise draws — two
`deterministic=True` calls with identical parameters, inputs and draws return
identical results (the sample-path noise is not consumed). -/
theorem actor_deterministic_same_draws (m : ActorModel)
    (belief state : List Vec) (with_logprob : Bool) (n₁ n₂ : Nat → Nat → Vec)
    (sn₁ sn₂ : List Vec) (h : n₁ = n₂) :
    m.forward belief state true with_logprob n₁ sn₁
      = m.forward belief state true with_logprob n₂ sn₂ := by
  subst h
  rfl

/-- Claim C5 (amended) witness: identical draws, different (unused) sample
noise. -/
theorem actor_deterministic_same_draws_witness :
    AM0.forward [[]] [[]] true false (fun _ _ => [0]) []
      = AM0.forward [[]] [[]] true false (fun _ _ => [0]) [[5]] :=
  actor_deterministic_same_draws AM0 [[]] [[]] false _ _ [] [[5]] rfl

/-- Claim C9: with `with_logprob=True` the returned log-probability is the
exact log-density of the returned action under the tanh-transformed,
independent-joint Normal distribution (no Monte-Carlo approximation), because
`SampleDist` forwards `log_prob` transparently to the wrapped distribution. -/
theorem actor_logprob_exact (m : ActorModel) (belief state : List Vec)
    (deterministic : Bool) (meanNoise : Nat → Nat → Vec)
    (sampleNoise : List Vec) :
    ∃ lp, (m.forward belief state deterministic true meanNoise
        sampleNoise).2 = some lp ∧
      ∀ i, i < lp.length →
        lp.getD i 0 = tanhNormalLogDensity
          ((m.distParams belief state).1.getD i [])
          ((m.distParams belief state).2.getD i [])
          ((m.forward belief state deterministic true meanNoise
            sampleNoise).1.getD i []) := by
  have hfwd : (m.forward belief state deterministic true meanNoise
        sampleNoise).2
      = some (List.zipWith (fun j y => j.logProb y)
          (List.zipWith
            (fun μ σ => Independent1 (TanhTransformedE (NormalE μ σ)))
            (m.distParams belief state).1 (m.distParams belief state).2)
          ((m.forward belief state deterministic true meanNoise
            sampleNoise).1)) := rfl
  refine ⟨_, hfwd, ?_⟩
  intro i hi
  have hlen := hi
  rw [List.length_zipWith, List.length_zipWith] at hlen
  have hP1 : i < (m.distParams belief state).1.length := by omega
  have hP2 : i < (m.distParams belief state).2.length := by omega
  have hFAM : i < (List.zipWith
      (fun μ σ => Independent1 (TanhTransformedE (NormalE μ σ)))
      (m.distParams belief state).1 (m.distParams belief state).2).length := by
    rw [List.length_zipWith]
    omega
  have hACT : i < (m.forward belief state deterministic true meanNoise
      sampleNoise).1.length := by omega
  rw [getD_zipWith _ _ _ i jdDefault [] 0 hFAM hACT,
    getD_zipWith _ _ _ i [] [] jdDefault hP1 hP2]
  refine tanhNormal_logProb_eq _ _ _ ?_
  intro x hx
  have hmem : (m.forward belief state deterministic true meanNoise
      sampleNoise).1.getD i []
      ∈ (m.forward belief state deterministic true meanNoise sampleNoise).1 := by
    rw [List.getD_eq_getElem _ _ hACT]
    exact List.getElem_mem hACT
  exact actor_action_bounded m belief state deterministic true meanNoise
    sampleNoise _ hmem x hx

theorem getD_replicate' {α : Type} (n i : Nat) (a d : α) (h : i < n) :
    (List.replicate n a).getD i d = a := by
  rw [List.getD_eq_getElem _ _ (by simpa using h), List.getElem_replicate]

theorem sampleTensor_length (sd : SampleDist) (noise : Nat → Nat → Vec) :
    (sd.sampleTensor noise).length = sd.samples := by
  simp [SampleDist.sampleTensor]

theorem sampleTensor_getD (sd : SampleDist) (noise : Nat → Nat → Vec) (s : Nat)
    (hs : s < sd.samples) :
    (sd.sampleTensor noise).getD s []
      = (List.range sd.dist.family.length).map fun b =>
          (sd.dist.family.getD b jdDefault).rsample (noise s b) := by
  rw [SampleDist.sampleTensor, getD_range_map _ _ _ _ hs]

theorem sampleTensor_shape (sd : SampleDist) (noise : Nat → Nat → Vec) (F : Nat)
    (hF : ∀ s b, s < sd.samples → b < sd.dist.family.length →
      ((sd.dist.family.getD b jdDefault).rsample (noise s b)).length = F) :
    ∀ mat ∈ sd.sampleTensor noise,
      mat.length = sd.dist.family.length ∧ ∀ row ∈ mat, row.length = F := by
  intro mat hmat
  simp only [SampleDist.sampleTensor, List.mem_map, List.mem_range] at hmat
  rcases hmat with ⟨s, hs, rfl⟩
  refine ⟨by simp, ?_⟩
  intro row hrow
  simp only [List.mem_map, List.mem_range] at hrow
  rcases hrow with ⟨b, hb, rfl⟩
  exact hF s b hs hb

theorem logprobTensor_length (sd : SampleDist) (noise : Nat → Nat → Vec) :
    (sd.logprobTensor noise).length = sd.samples := by
  simp [SampleDist.logprobTensor, sampleTensor_length]

theorem logprobTensor_getD (sd : SampleDist) (noise : Nat → Nat → Vec)
    (s b : Nat) (hs : s < sd.samples) (hb : b < sd.dist.family.length) :
    ((sd.logprobTensor noise).getD s []).getD b 0
      = (sd.dist.family.getD b jdDefault).logProb
          ((sd.dist.family.getD b jdDefault).rsample (noise s b)) := by
  rw [SampleDist.logprobTensor,
    getD_map_list _ _ s [] [] (by rw [sampleTensor_length]; exact hs),
    sampleTensor_getD sd noise s hs,
    getD_zipWith _ _ _ b jdDefault [] 0 hb (by simpa using hb),
    getD_range_map _ _ _ _ hb]

/-- Claim C8: `SampleDist` (default sample count 100) computes its mean as the
elementwise arithmetic mean of the reparameterized draws from the
batch-expanded distribution, its mode as — per batch element — the drawn
sample of maximal log-density under that same distribution, and its entropy as
the negated mean of the draws' log-densities. -/
theorem sampledist_monte_carlo (sd : SampleDist) (noise : Nat → Nat → Vec)
    (F : Nat) (hS : 0 < sd.samples)
    (hF : ∀ s b, s < sd.samples → b < sd.dist.family.length →
      ((sd.dist.family.getD b jdDefault).rsample (noise s b)).length = F) :
    (∀ d : BatchJointDist, (SampleDist.ofDist d).samples = 100) ∧
    (∀ b f, b < sd.dist.family.length → f < F →
      ((sd.mean noise).getD b []).getD f 0
        = (∑ s ∈ Finset.range sd.samples,
            ((sd.dist.family.getD b jdDefault).rsample (noise s b)).getD f 0)
          / sd.samples) ∧
    (∀ b, b < sd.dist.family.length →
      ∃ s, s < sd.samples ∧
        (sd.mode noise).getD b []
          = (sd.dist.family.getD b jdDefault).rsample (noise s b) ∧
        ∀ s2, s2 < sd.samples →
          (sd.dist.family.getD b jdDefault).logProb
              ((sd.dist.family.getD b jdDefault).rsample (noise s2 b))
            ≤ (sd.dist.family.getD b jdDefault).logProb
              ((sd.dist.family.getD b jdDefault).rsample (noise s b))) ∧
    (∀ b, b < sd.dist.family.length →
      (sd.entropy noise).getD b 0
        = -((∑ s ∈ Finset.range sd.samples,
              (sd.dist.family.getD b jdDefault).logProb
                ((sd.dist.family.getD b jdDefault).rsample (noise s b)))
            / sd.samples)) := by
  have hSTlen := sampleTensor_length sd noise
  have hSTne : sd.sampleTensor noise ≠ [] := by
    intro hnil
    rw [hnil] at hSTlen
    simp at hSTlen
    omega
  have hshape := sampleTensor_shape sd noise F hF
  refine ⟨fun d => rfl, ?_, ?_, ?_⟩
  · -- mean
    intro b f hb hf
    have hsum := sumMats_shape _ _ _ hshape hSTne
    have hrowmem : (sumMats (sd.sampleTensor noise)).getD b []
        ∈ sumMats (sd.sampleTensor noise) := by
      rw [List.getD_eq_getElem _ _ (by rw [hsum.1]; exact hb)]
      exact List.getElem_mem _
    rw [SampleDist.mean, meanDim0,
      getD_map_list _ _ b [] [] (by rw [hsum.1]; exact hb),
      getD_map_list _ _ f 0 0 (by rw [hsum.2 _ hrowmem]; exact hf),
      sumMats_getD _ _ _ hshape b f hb hf hSTne, hSTlen]
    congr 1
    rw [SampleDist.sampleTensor, List.map_map, list_range_map_sum]
    refine Finset.sum_congr rfl fun s hs => ?_
    have hs' := Finset.mem_range.mp hs
    simp only [Function.comp]
    rw [getD_range_map _ _ _ _ hb]
  · -- mode
    intro b hb
    have hcollen : ((sd.logprobTensor noise).map
        (fun row => row.getD b 0)).length = sd.samples := by
      rw [List.length_map, logprobTensor_length]
    have hcolne : (sd.logprobTensor noise).map (fun row => row.getD b 0)
        ≠ [] := by
      intro hnil
      rw [hnil] at hcollen
      simp at hcollen
      omega
    have hidx : argmaxIdx ((sd.logprobTensor noise).map
        (fun row => row.getD b 0)) < sd.samples := by
      have := argmaxIdx_lt _ hcolne
      rwa [hcollen] at this
    have hcol : ∀ s2, s2 < sd.samples →
        ((sd.logprobTensor noise).map (fun row => row.getD b 0)).getD s2 0
          = (sd.dist.family.getD b jdDefault).logProb
              ((sd.dist.family.getD b jdDefault).rsample (noise s2 b)) := by
      intro s2 hs2
      rw [getD_map_list _ _ s2 [] 0 (by rw [logprobTensor_length]; exact hs2)]
      exact logprobTensor_getD sd noise s2 b hs2 hb
    refine ⟨argmaxIdx ((sd.logprobTensor noise).map (fun row => row.getD b 0)),
      hidx, ?_, ?_⟩
    · -- the gathered row is the argmax sample
      have hB0 : 0 < sd.dist.family.length := by omega
      have hbatch : ((sd.sampleTensor noise).getD 0 []).length
          = sd.dist.family.length := by
        rw [sampleTensor_getD sd noise 0 hS]
        simp
      have hfeat : (((sd.sampleTensor noise).getD 0 []).getD 0 []).length
          = F := by
        rw [sampleTensor_getD sd noise 0 hS, getD_range_map _ _ _ _ hB0]
        exact hF 0 0 hS hB0
      rw [SampleDist.mode]
      simp only [hbatch, hfeat]
      rw [gatherDim0]
      simp only [List.map_cons, List.map_nil, List.getD_cons_zero]
      rw [getD_range_map _ _ _ _ (by simpa using hb)]
      have hrep : ((List.range sd.dist.family.length).map fun b2 =>
          List.replicate F (argmaxIdx ((sd.logprobTensor noise).map
            fun row => row.getD b2 0))).getD b []
          = List.replicate F (argmaxIdx ((sd.logprobTensor noise).map
              fun row => row.getD b 0)) := getD_range_map _ _ _ _ hb
      rw [hrep]
      simp only [List.length_replicate]
      have hrowlen : (((sd.sampleTensor noise).getD
          (argmaxIdx ((sd.logprobTensor noise).map fun row => row.getD b 0))
          []).getD b []).length = F := by
        rw [sampleTensor_getD sd noise _ hidx, getD_range_map _ _ _ _ hb]
        exact hF _ b hidx hb
      refine Eq.trans (List.map_congr_left fun f2 hf2 => ?_)
        (Eq.trans (range_map_getD _ 0 F hrowlen) ?_)
      · rw [getD_replicate' F f2 _ 0 (List.mem_range.mp hf2)]
      · rw [sampleTensor_getD sd noise _ hidx, getD_range_map _ _ _ _ hb]
    · intro s2 hs2
      have h1 := argmaxIdx_max ((sd.logprobTensor noise).map
        (fun row => row.getD b 0)) s2 (by rw [hcollen]; exact hs2)
      rwa [hcol s2 hs2, hcol _ hidx] at h1
  · -- entropy
    intro b hb
    have hLTlen := logprobTensor_length sd noise
    have hLTne : sd.logprobTensor noise ≠ [] := by
      intro hnil
      rw [hnil] at hLTlen
      simp at hLTlen
      omega
    have hrows : ∀ v ∈ sd.logprobTensor noise,
        v.length = sd.dist.family.length := by
      intro v hv
      simp only [SampleDist.logprobTensor, List.mem_map] at hv
      rcases hv with ⟨mat, hmat, rfl⟩
      have := (sampleTensor_shape sd noise F hF mat hmat).1
      simp [List.length_zipWith, this]
    have hsv := sumVecs_length _ _ hrows hLTne
    rw [SampleDist.entropy,
      getD_map_list _ _ b 0 0 (by rw [meanVecs, List.length_map, hsv]; exact hb)]
    rw [meanVecs, getD_map_list _ _ b 0 0 (by rw [hsv]; exact hb),
      sumVecs_getD _ _ hrows b hb hLTne, hLTlen]
    congr 1
    congr 1
    rw [SampleDist.logprobTensor, SampleDist.sampleTensor, List.map_map,
      List.map_map, list_range_map_sum]
    refine Finset.sum_congr rfl fun s hs => ?_
    have hs' := Finset.mem_range.mp hs
    simp only [Function.comp]
    rw [getD_zipWith _ _ _ b jdDefault [] 0 hb (by simpa using hb),
      getD_range_map _ _ _ _ hb]

/-- Witness for C8 at the concrete one-element batch distribution `SD1`
with constant noise. -/
theorem sampledist_monte_carlo_witness :
    0 < SD1.samples ∧
    (∀ s b, s < SD1.samples → b < SD1.dist.family.length →
      ((SD1.dist.family.getD b jdDefault).rsample (w8noise s b)).length = 1) ∧
    ((∀ d : BatchJointDist, (SampleDist.ofDist d).samples = 100) ∧
    (∀ b f, b < SD1.dist.family.length → f < 1 →
      ((SD1.mean w8noise).getD b []).getD f 0
        = (∑ s ∈ Finset.range SD1.samples,
            ((SD1.dist.family.getD b jdDefault).rsample (w8noise s b)).getD f 0)
          / SD1.samples) ∧
    (∀ b, b < SD1.dist.family.length →
      ∃ s, s < SD1.samples ∧
        (SD1.mode w8noise).getD b []
          = (SD1.dist.family.getD b jdDefault).rsample (w8noise s b) ∧
        ∀ s2, s2 < SD1.samples →
          (SD1.dist.family.getD b jdDefault).logProb
              ((SD1.dist.family.getD b jdDefault).rsample (w8noise s2 b))
            ≤ (SD1.dist.family.getD b jdDefault).logProb
              ((SD1.dist.family.getD b jdDefault).rsample (w8noise s b))) ∧
    (∀ b, b < SD1.dist.family.length →
      (SD1.entropy w8noise).getD b 0
        = -((∑ s ∈ Finset.range SD1.samples,
              (SD1.dist.family.getD b jdDefault).logProb
                ((SD1.dist.family.getD b jdDefault).rsample (w8noise s b)))
            / SD1.samples))) :=
  ⟨Nat.succ_pos 99,
    fun _ b _ hb => by
      have hb0 : b = 0 := Nat.lt_one_iff.mp hb
      subst hb0
      rfl,
    sampledist_monte_carlo SD1 w8noise 1 (Nat.succ_pos 99)
      (fun _ b _ hb => by
        have hb0 : b = 0 := Nat.lt_one_iff.mp hb
        subst hb0
        rfl)⟩

end Dreamer
